import Mathlib

/-!
Verification of the cross-exchange liquidity/slippage analysis engine of
`pages/liquidity_analysis.py`.

The embedding models Python floats as exact rationals (`ℚ`), Python dicts
returned by `calculate_slippage` as the `FillResult` structure (absent keys
become `none`), and uncaught Python exceptions (`ValueError` from `max()` /
`min()` on an empty sequence, `ZeroDivisionError` from division,
`UnboundLocalError` from reading an unassigned local) as the `PyResult.exn`
constructor.  Python `round(x, n)` is round-half-to-even at `n` digits,
modelled by `pyRound`.  Python `sorted` is a stable comparison sort,
modelled by a stable insertion sort `sortByLe`.
-/

/-- Outcome of running a piece of Python code: a value, or an uncaught
exception carrying its message. -/
inductive PyResult (α : Type) where
  | ok (val : α)
  | exn (msg : String)
deriving Repr, DecidableEq

/-- Python `round` rounds half to even.  This is the integer rounding of a
rational with that tie rule. -/
def roundHalfEven (q : ℚ) : ℤ :=
  let f := ⌊q⌋
  let r := q - f
  if r < 1/2 then f
  else if 1/2 < r then f + 1
  else if f % 2 = 0 then f else f + 1

/-- Python `round(q, ndigits)`. -/
def pyRound (ndigits : ℕ) (q : ℚ) : ℚ :=
  (roundHalfEven (q * 10 ^ ndigits) : ℚ) / 10 ^ ndigits

/-- Python `a / b`: raises `ZeroDivisionError` when `b = 0`. -/
def pyDiv (a b : ℚ) : PyResult ℚ :=
  if b = 0 then .exn ("ZeroDivisionError: float division by zero")
  else .ok (a / b)

/-- One price level of an order book: `{"price": ..., "qty": ...}`. -/
structure Level where
  price : ℚ
  qty : ℚ
deriving Repr, DecidableEq

/-- A normalized order book as consumed by `calculate_slippage`. -/
structure Orderbook where
  bids : List Level
  asks : List Level
deriving Repr, DecidableEq

/-- The `side` argument of `calculate_slippage`. -/
inductive Side where
  | buy
  | sell
deriving Repr, DecidableEq

/-- Python `max(it)` over a nonempty iterable folds `max` from the left;
on an empty iterable it raises `ValueError`. -/
def listMax : List ℚ → PyResult ℚ
  | [] => .exn ("ValueError: max() arg is an empty sequence")
  | x :: xs => .ok (xs.foldl max x)

/-- Python `min(it)`; raises `ValueError` on an empty iterable. -/
def listMin : List ℚ → PyResult ℚ
  | [] => .exn ("ValueError: min() arg is an empty sequence")
  | x :: xs => .ok (xs.foldl min x)

/-- The `max(b["price"] for b in orderbook["bids"])` expression. -/
def maxPrice (l : List Level) : PyResult ℚ :=
  listMax (l.map Level.price)

/-- The `min(a["price"] for a in orderbook["asks"])` expression. -/
def minPrice (l : List Level) : PyResult ℚ :=
  listMin (l.map Level.price)

/-- Insert into an already sorted list, before the first element that is
not `le`-below the inserted one; used to model Python stable `sorted`. -/
def insertSorted {α : Type} (le : α → α → Bool) (x : α) : List α → List α
  | [] => [x]
  | y :: ys => if le x y then x :: y :: ys else y :: insertSorted le x ys

/-- Stable insertion sort, the model of Python `sorted(l, key=...)`. -/
def sortByLe {α : Type} (le : α → α → Bool) (l : List α) : List α :=
  l.foldr (insertSorted le) []

/-- Ascending comparison on prices, for `sorted(asks, key=lambda x: x["price"])`. -/
def leAsc (a b : Level) : Bool := decide (a.price ≤ b.price)

/-- Descending comparison on prices, for `sorted(bids, key=lambda x: -x["price"])`. -/
def leDesc (a b : Level) : Bool := decide (b.price ≤ a.price)

/-- The `levels` local of `calculate_slippage`: opposing side, sorted. -/
def sortLevels (side : Side) (ob : Orderbook) : List Level :=
  match side with
  | .buy => sortByLe leAsc ob.asks
  | .sell => sortByLe leDesc ob.bids

/-- The dict returned by `calculate_slippage`.  Keys that a given return
statement does not produce are `none`. -/
structure FillResult where
  slippage : Option ℚ
  slippageBps : Option ℚ
  effectiveSpreadBps : Option ℚ
  filled : Bool
  filledPercent : Option ℚ
  error : Option String
deriving Repr, DecidableEq

/-- The early `{"slippage": None, "filled": False, "error": "No liquidity"}`
return of `calculate_slippage` (no `filledPercent` key). -/
def noLiquidityResult : FillResult :=
  { slippage := none, slippageBps := none, effectiveSpreadBps := none,
    filled := false, filledPercent := none, error := some ("No liquidity") }

/-- The `total_qty == 0` return inside the not-fully-filled branch
(`filledPercent` present and equal to 0). -/
def noLiquidityZeroQty : FillResult :=
  { slippage := none, slippageBps := none, effectiveSpreadBps := none,
    filled := false, filledPercent := some 0, error := some ("No liquidity") }

/-- Accumulator state of the level-walking loop of `calculate_slippage`:
`total_qty`, `total_cost`, `remaining_usd` and `worst_price`. -/
structure Walk where
  totalQty : ℚ
  totalCost : ℚ
  remaining : ℚ
  worst : ℚ
deriving Repr, DecidableEq

/-- The `for level in levels` loop of `calculate_slippage`, with the
Python `ZeroDivisionError` of `remaining_usd / price` made explicit.
The `w` argument is the incoming `worst_price` (initially `best_price`). -/
def walkLevels (r w : ℚ) : List Level → PyResult Walk
  | [] => .ok ⟨0, 0, r, w⟩
  | L :: ls =>
    let v := L.price * L.qty
    if r ≤ v then
      if L.price = 0 then .exn ("ZeroDivisionError: float division by zero")
      else .ok ⟨r / L.price, r, 0, L.price⟩
    else
      match walkLevels (r - v) L.price ls with
      | .exn e => .exn e
      | .ok o => .ok ⟨L.qty + o.totalQty, v + o.totalCost, o.remaining, o.worst⟩

/-- Exception-free companion of `walkLevels` (Lean division-by-zero
convention); equal to it whenever no `ZeroDivisionError` can fire. -/
def walkPure (r w : ℚ) : List Level → Walk
  | [] => ⟨0, 0, r, w⟩
  | L :: ls =>
    let v := L.price * L.qty
    if r ≤ v then ⟨r / L.price, r, 0, L.price⟩
    else
      let o := walkPure (r - v) L.price ls
      ⟨L.qty + o.totalQty, v + o.totalCost, o.remaining, o.worst⟩

/-- The Python conditional `avg_price - mid_price if side == "buy" else
mid_price - avg_price` appearing in the slippage numerator. -/
def sideNum (side : Side) (mid_price avg_price : ℚ) : ℚ :=
  match side with
  | .buy => avg_price - mid_price
  | .sell => mid_price - avg_price

/-- Everything `calculate_slippage` does after the walk: effective spread,
the partial-fill branch and the fully-filled branch. -/
def fillFromWalk (size_usd mid_price best_price : ℚ) (side : Side) (o : Walk) :
    PyResult FillResult :=
  match pyDiv (o.worst - best_price) best_price with
  | .exn e => .exn e
  | .ok espr =>
    let effective_spread := |espr| * 100
    if 0 < o.remaining then
      match pyDiv (size_usd - o.remaining) size_usd with
      | .exn e => .exn e
      | .ok fpq =>
        let filled_percent := fpq * 100
        if o.totalQty = 0 then .ok noLiquidityZeroQty
        else
          match pyDiv o.totalCost o.totalQty with
          | .exn e => .exn e
          | .ok avg_price =>
            match pyDiv (sideNum side mid_price avg_price) mid_price with
            | .exn e => .exn e
            | .ok slq =>
              let slippage := slq * 100
              .ok { slippage := some (pyRound 6 slippage),
                    slippageBps := some (pyRound 2 (slippage * 100)),
                    effectiveSpreadBps := some (pyRound 2 (effective_spread * 100)),
                    filled := false,
                    filledPercent := some (pyRound 2 filled_percent),
                    error := none }
    else
      match pyDiv o.totalCost o.totalQty with
      | .exn e => .exn e
      | .ok avg_price =>
        match pyDiv (sideNum side mid_price avg_price) mid_price with
        | .exn e => .exn e
        | .ok slq =>
          let slippage := slq * 100
          .ok { slippage := some (pyRound 6 slippage),
                slippageBps := some (pyRound 2 (slippage * 100)),
                effectiveSpreadBps := some (pyRound 2 (effective_spread * 100)),
                filled := true,
                filledPercent := some 100,
                error := none }

/-- The `calculate_slippage(orderbook, size_usd, side)` function. -/
def calculate_slippage (ob : Orderbook) (size_usd : ℚ) (side : Side) :
    PyResult FillResult :=
  let levels := sortLevels side ob
  if levels.length = 0 then .ok noLiquidityResult
  else
    match maxPrice ob.bids with
    | .exn e => .exn e
    | .ok best_bid =>
      match minPrice ob.asks with
      | .exn e => .exn e
      | .ok best_ask =>
        let mid_price := (best_bid + best_ask) / 2
        let best_price := match side with | .buy => best_ask | .sell => best_bid
        match walkLevels size_usd best_price levels with
        | .exn e => .exn e
        | .ok o => fillFromWalk size_usd mid_price best_price side o

/-- The fixed notional sizes `CLIP_SIZES`. -/
def CLIP_SIZES : List ℚ := [1000, 10000, 50000, 100000, 500000]

/-- Python `x or y` on an optional float `x`: `x` when it is truthy
(present and nonzero), else `y`. -/
def truthyOr (a : Option ℚ) (b : ℚ) : ℚ :=
  match a with
  | some x => if x = 0 then b else x
  | none => b

/-- One value of `result["slippage"][size]` built by `analyze_orderbook`
(the constant `levels` sub-dict `{"buy": 0, "sell": 0}` is carried as two
fields that are always 0, since `calculate_slippage` never returns a
`levelsUsed` key). -/
structure SizeEntry where
  slippageBps : ℚ
  takerFeeBps : ℚ
  totalCostBps : ℚ
  effectiveSpreadBps : ℚ
  filled : Bool
  levelsBuy : ℕ
  levelsSell : ℕ
deriving Repr, DecidableEq

/-- One iteration of the `for size in CLIP_SIZES` loop of
`analyze_orderbook`.  The `st` argument is the binding state of the Python
local `avg_slippage`: `none` while it has never been assigned.  Reading it
unassigned raises `UnboundLocalError`; when only one side produced a
slippage the code merely logs and leaves the local untouched. -/
def analyzeClipStep (ob : Orderbook) (taker_fee_bps : ℚ) (st : Option ℚ)
    (size : ℚ) : PyResult (Option ℚ × SizeEntry) :=
  match calculate_slippage ob size .buy with
  | .exn e => .exn e
  | .ok bid_slippage =>
    match calculate_slippage ob size .sell with
    | .exn e => .exn e
    | .ok ask_slippage =>
      let st2 := match bid_slippage.slippage, ask_slippage.slippage with
        | some b, some a => some ((b + a) / 2)
        | _, _ => st
      let avg_eff_spread := match bid_slippage.effectiveSpreadBps,
          ask_slippage.effectiveSpreadBps with
        | some b, some a => (b + a) / 2
        | _, _ => truthyOr bid_slippage.effectiveSpreadBps
            (truthyOr ask_slippage.effectiveSpreadBps 0)
      match st2 with
      | none => .exn ("UnboundLocalError: local variable referenced before assignment")
      | some avg_slippage =>
        let slippage_bps := pyRound 2 (avg_slippage * 100)
        .ok (st2, { slippageBps := slippage_bps,
                    takerFeeBps := taker_fee_bps,
                    totalCostBps := pyRound 2 (slippage_bps + taker_fee_bps),
                    effectiveSpreadBps := pyRound 2 avg_eff_spread,
                    filled := bid_slippage.filled && ask_slippage.filled,
                    levelsBuy := 0, levelsSell := 0 })

/-- The whole `for size in CLIP_SIZES` loop, threading the binding state
of `avg_slippage` across iterations. -/
def analyzeClipLoop (ob : Orderbook) (taker_fee_bps : ℚ) (st : Option ℚ) :
    List ℚ → PyResult (List (ℚ × SizeEntry))
  | [] => .ok []
  | s :: ss =>
    match analyzeClipStep ob taker_fee_bps st s with
    | .exn e => .exn e
    | .ok (st2, e) =>
      match analyzeClipLoop ob taker_fee_bps st2 ss with
      | .exn e2 => .exn e2
      | .ok rest => .ok ((s, e) :: rest)

/-- The `result["slippage"]` mapping built by `analyze_orderbook` for a
book with nonempty bids and asks (the taker fee is the externally supplied
per-exchange constant). -/
def analyzeClipSizes (ob : Orderbook) (taker_fee_bps : ℚ) :
    PyResult (List (ℚ × SizeEntry)) :=
  analyzeClipLoop ob taker_fee_bps none CLIP_SIZES

/-- A per-venue, per-size analysis entry as consumed by
`reorganize_by_clip_size`: the computed numeric fields of
`analysis["slippage"][size]` together with the exchange name. -/
structure RankInput where
  exchange : String
  slippageBps : ℚ
  takerFeeBps : ℚ
  totalCostBps : ℚ
  filled : Bool
deriving Repr, DecidableEq

/-- A pandas float cell that is either a finite value or `float("inf")`. -/
inductive BpsVal where
  | inf
  | val (q : ℚ)
deriving Repr, DecidableEq

/-- One row appended by `reorganize_by_clip_size`. -/
structure Row where
  exchange : String
  slippageBps : BpsVal
  takerFeeBps : ℚ
  totalCostBps : BpsVal
  note : String
deriving Repr, DecidableEq

/-- Row construction: a not-fully-filled venue gets `float("inf")` for
both slippage and total cost plus the insufficient-liquidity note. -/
def buildRow (a : RankInput) : Row :=
  if a.filled then
    { exchange := a.exchange, slippageBps := .val a.slippageBps,
      takerFeeBps := a.takerFeeBps, totalCostBps := .val a.totalCostBps,
      note := "" }
  else
    { exchange := a.exchange, slippageBps := .inf,
      takerFeeBps := a.takerFeeBps, totalCostBps := .inf,
      note := "* insufficient liquidity" }

/-- The sort key of `df.sort_values(by="totalCostBps", key=lambda col:
col.replace(float("inf"), 1e18))`. -/
def sortKey : BpsVal → ℚ
  | .inf => 10 ^ 18
  | .val q => q

/-- Row comparison used by the sort of `reorganize_by_clip_size`. -/
def rowLe (r s : Row) : Bool := decide (sortKey r.totalCostBps ≤ sortKey s.totalCostBps)

/-- The per-size table built by `reorganize_by_clip_size`: rows built from
the venue entries for that size, sorted by the inf-replaced total cost. -/
def reorganize_by_clip_size (l : List RankInput) : List Row :=
  sortByLe rowLe (l.map buildRow)

/-- One raw level of the Hyperliquid `l2Book` payload. -/
structure HLRawLevel where
  px : ℚ
  sz : ℚ
deriving Repr, DecidableEq

/-- The pure normalization step of `fetch_hyperliquid_orderbook`: validate
`data["levels"]`, then map `levels[0]` to bids and `levels[1]` to asks in
payload order (no sorting). -/
def fetch_hyperliquid_normalize (levels : List (List HLRawLevel)) :
    PyResult Orderbook :=
  match levels with
  | b :: a :: _ =>
    .ok { bids := b.map fun l => ⟨l.px, l.sz⟩,
          asks := a.map fun l => ⟨l.px, l.sz⟩ }
  | _ => .exn ("ValueError: Invalid orderbook on Hyperliquid")

/-- One raw level of the Lighter `orderBookOrders` payload. -/
structure LighterRawLevel where
  price : ℚ
  remaining_base_amount : ℚ
deriving Repr, DecidableEq

/-- The pure normalization step of `fetch_lighter_orderbook`: bids sorted
descending by price, asks ascending. -/
def fetch_lighter_normalize (bidsRaw asksRaw : List LighterRawLevel) :
    Orderbook :=
  { bids := sortByLe leDesc (bidsRaw.map fun l => ⟨l.price, l.remaining_base_amount⟩),
    asks := sortByLe leAsc (asksRaw.map fun l => ⟨l.price, l.remaining_base_amount⟩) }

/-- Merge adjacent levels of equal price into one level holding their
total quantity.  On a price-sorted list this groups each price block. -/
def aggLevels : List Level → List Level
  | [] => []
  | L :: ls =>
    match aggLevels ls with
    | [] => [L]
    | M :: ms => if L.price = M.price then ⟨L.price, L.qty + M.qty⟩ :: ms
                 else L :: M :: ms

/-- Total notional depth of a list of levels. -/
def depthUsd (l : List Level) : ℚ := (l.map fun L => L.price * L.qty).sum

/-- Total quantity of a list of levels. -/
def sumQty (l : List Level) : ℚ := (l.map Level.qty).sum

/-- The opposing side consumed by a taker order of a given side. -/
def opposing (side : Side) (ob : Orderbook) : List Level :=
  match side with
  | .buy => ob.asks
  | .sell => ob.bids

/-! ### Rounding lemmas -/

theorem roundHalfEven_nonneg (q : ℚ) (h : 0 ≤ q) : 0 ≤ roundHalfEven q := by
  have hf : (0:ℤ) ≤ ⌊q⌋ := Int.floor_nonneg.mpr h
  unfold roundHalfEven
  dsimp only
  split_ifs <;> omega

theorem pyRound_nonneg (n : ℕ) (q : ℚ) (h : 0 ≤ q) : 0 ≤ pyRound n q := by
  have h10 : (0:ℚ) < 10 ^ n := by positivity
  have hq : 0 ≤ q * 10 ^ n := by positivity
  have hr : (0:ℚ) ≤ (roundHalfEven (q * 10 ^ n) : ℚ) := by
    exact_mod_cast roundHalfEven_nonneg _ hq
  exact div_nonneg hr (le_of_lt h10)

theorem roundHalfEven_zero : roundHalfEven 0 = 0 := by
  simp [roundHalfEven]

theorem pyRound_zero (n : ℕ) : pyRound n 0 = 0 := by
  simp [pyRound, roundHalfEven]

/-! ### Python max and min over lists -/

theorem foldl_max_spec (xs : List ℚ) (a : ℚ) :
    (xs.foldl max a = a ∨ xs.foldl max a ∈ xs) ∧ a ≤ xs.foldl max a ∧
      ∀ x ∈ xs, x ≤ xs.foldl max a := by
  induction xs generalizing a with
  | nil => simp
  | cons y ys ih =>
    obtain ⟨h1, h2, h3⟩ := ih (max a y)
    simp only [List.foldl_cons, List.mem_cons]
    refine ⟨?_, le_trans (le_max_left a y) h2, ?_⟩
    · rcases h1 with h | h
      · rcases max_choice a y with hc | hc
        · exact Or.inl (h.trans hc)
        · exact Or.inr (Or.inl (h.trans hc))
      · exact Or.inr (Or.inr h)
    · rintro x (rfl | hx)
      · exact le_trans (le_max_right a x) h2
      · exact h3 x hx

theorem foldl_min_spec (xs : List ℚ) (a : ℚ) :
    (xs.foldl min a = a ∨ xs.foldl min a ∈ xs) ∧ xs.foldl min a ≤ a ∧
      ∀ x ∈ xs, xs.foldl min a ≤ x := by
  induction xs generalizing a with
  | nil => simp
  | cons y ys ih =>
    obtain ⟨h1, h2, h3⟩ := ih (min a y)
    simp only [List.foldl_cons, List.mem_cons]
    refine ⟨?_, le_trans h2 (min_le_left a y), ?_⟩
    · rcases h1 with h | h
      · rcases min_choice a y with hc | hc
        · exact Or.inl (h.trans hc)
        · exact Or.inr (Or.inl (h.trans hc))
      · exact Or.inr (Or.inr h)
    · rintro x (rfl | hx)
      · exact le_trans h2 (min_le_right a x)
      · exact h3 x hx

theorem listMax_ok_iff (l : List ℚ) (m : ℚ) :
    listMax l = .ok m ↔ m ∈ l ∧ ∀ x ∈ l, x ≤ m := by
  cases l with
  | nil => simp [listMax]
  | cons a xs =>
    obtain ⟨h1, h2, h3⟩ := foldl_max_spec xs a
    constructor
    · intro h
      have hm : xs.foldl max a = m := by
        simpa [listMax] using h
      rw [← hm]
      refine ⟨?_, ?_⟩
      · rcases h1 with h | h
        · rw [h]; exact List.mem_cons_self a xs
        · exact List.mem_cons_of_mem a h
      · intro x hx
        rcases List.mem_cons.mp hx with rfl | hx
        · exact h2
        · exact h3 x hx
    · rintro ⟨hmem, hub⟩
      have hle : xs.foldl max a ≤ m := by
        rcases h1 with h | h
        · rw [h]; exact hub a (List.mem_cons_self a xs)
        · exact hub _ (List.mem_cons_of_mem a h)
      have hge : m ≤ xs.foldl max a := by
        rcases List.mem_cons.mp hmem with rfl | hx
        · exact h2
        · exact h3 m hx
      simp [listMax, le_antisymm hle hge]

theorem listMin_ok_iff (l : List ℚ) (m : ℚ) :
    listMin l = .ok m ↔ m ∈ l ∧ ∀ x ∈ l, m ≤ x := by
  cases l with
  | nil => simp [listMin]
  | cons a xs =>
    obtain ⟨h1, h2, h3⟩ := foldl_min_spec xs a
    constructor
    · intro h
      have hm : xs.foldl min a = m := by
        simpa [listMin] using h
      rw [← hm]
      refine ⟨?_, ?_⟩
      · rcases h1 with h | h
        · rw [h]; exact List.mem_cons_self a xs
        · exact List.mem_cons_of_mem a h
      · intro x hx
        rcases List.mem_cons.mp hx with rfl | hx
        · exact h2
        · exact h3 x hx
    · rintro ⟨hmem, hlb⟩
      have hle : m ≤ xs.foldl min a := by
        rcases h1 with h | h
        · rw [h]; exact hlb a (List.mem_cons_self a xs)
        · exact hlb _ (List.mem_cons_of_mem a h)
      have hge : xs.foldl min a ≤ m := by
        rcases List.mem_cons.mp hmem with rfl | hx
        · exact h2
        · exact h3 m hx
      simp [listMin, le_antisymm hge hle]

theorem listMax_eq_of_perm {l1 l2 : List ℚ} (h : l1.Perm l2) :
    listMax l1 = listMax l2 := by
  cases l1 with
  | nil =>
    have h2 : l2 = [] := h.symm.eq_nil
    simp [h2]
  | cons a xs =>
    cases l2 with
    | nil => simp at h
    | cons b ys =>
      obtain ⟨m1, hm1⟩ : ∃ m, listMax (a :: xs) = .ok m := ⟨_, rfl⟩
      obtain ⟨m2, hm2⟩ : ∃ m, listMax (b :: ys) = .ok m := ⟨_, rfl⟩
      obtain ⟨hmem1, hub1⟩ := (listMax_ok_iff _ _).mp hm1
      obtain ⟨hmem2, hub2⟩ := (listMax_ok_iff _ _).mp hm2
      have e : m1 = m2 :=
        le_antisymm (hub2 m1 (h.mem_iff.mp hmem1)) (hub1 m2 (h.mem_iff.mpr hmem2))
      rw [hm1, hm2, e]

theorem listMin_eq_of_perm {l1 l2 : List ℚ} (h : l1.Perm l2) :
    listMin l1 = listMin l2 := by
  cases l1 with
  | nil =>
    have h2 : l2 = [] := h.symm.eq_nil
    simp [h2]
  | cons a xs =>
    cases l2 with
    | nil => simp at h
    | cons b ys =>
      obtain ⟨m1, hm1⟩ : ∃ m, listMin (a :: xs) = .ok m := ⟨_, rfl⟩
      obtain ⟨m2, hm2⟩ : ∃ m, listMin (b :: ys) = .ok m := ⟨_, rfl⟩
      obtain ⟨hmem1, hlb1⟩ := (listMin_ok_iff _ _).mp hm1
      obtain ⟨hmem2, hlb2⟩ := (listMin_ok_iff _ _).mp hm2
      have e : m1 = m2 :=
        le_antisymm (hlb1 m2 (h.mem_iff.mpr hmem2)) (hlb2 m1 (h.mem_iff.mp hmem1))
      rw [hm1, hm2, e]

theorem maxPrice_eq_of_perm {l1 l2 : List Level} (h : l1.Perm l2) :
    maxPrice l1 = maxPrice l2 :=
  listMax_eq_of_perm (h.map Level.price)

theorem minPrice_eq_of_perm {l1 l2 : List Level} (h : l1.Perm l2) :
    minPrice l1 = minPrice l2 :=
  listMin_eq_of_perm (h.map Level.price)

/-! ### Stable sort lemmas -/

theorem insertSorted_perm {α : Type} (le : α → α → Bool) (x : α) (l : List α) :
    (insertSorted le x l).Perm (x :: l) := by
  induction l with
  | nil => simp [insertSorted]
  | cons y ys ih =>
    unfold insertSorted
    split_ifs
    · exact List.Perm.refl _
    · exact (List.Perm.cons y ih).trans (List.Perm.swap x y ys)

theorem sortByLe_perm {α : Type} (le : α → α → Bool) (l : List α) :
    (sortByLe le l).Perm l := by
  induction l with
  | nil => simp [sortByLe]
  | cons y ys ih =>
    have h1 : sortByLe le (y :: ys) = insertSorted le y (sortByLe le ys) := rfl
    rw [h1]
    exact (insertSorted_perm le y (sortByLe le ys)).trans (List.Perm.cons y ih)

theorem insertSorted_pairwise {α : Type} (le : α → α → Bool)
    (htrans : ∀ a b c, le a b = true → le b c = true → le a c = true)
    (htotal : ∀ a b, le a b = true ∨ le b a = true) (x : α) (l : List α)
    (hl : l.Pairwise (fun a b => le a b = true)) :
    (insertSorted le x l).Pairwise (fun a b => le a b = true) := by
  induction l with
  | nil => simp [insertSorted]
  | cons y ys ih =>
    rcases List.pairwise_cons.mp hl with ⟨hy, hys⟩
    unfold insertSorted
    split_ifs with hxy
    · refine List.pairwise_cons.mpr ⟨?_, hl⟩
      intro b hb
      rcases List.mem_cons.mp hb with rfl | hb
      · exact hxy
      · exact htrans x y b hxy (hy b hb)
    · refine List.pairwise_cons.mpr ⟨?_, ih hys⟩
      intro b hb
      have hmem : b ∈ x :: ys := (insertSorted_perm le x ys).mem_iff.mp hb
      rcases List.mem_cons.mp hmem with rfl | hb2
      · rcases htotal y b with h | h
        · exact h
        · exact absurd h (by simpa using hxy)
      · exact hy b hb2

theorem sortByLe_pairwise {α : Type} (le : α → α → Bool)
    (htrans : ∀ a b c, le a b = true → le b c = true → le a c = true)
    (htotal : ∀ a b, le a b = true ∨ le b a = true) (l : List α) :
    (sortByLe le l).Pairwise (fun a b => le a b = true) := by
  induction l with
  | nil => simp [sortByLe]
  | cons y ys ih => exact insertSorted_pairwise le htrans htotal y _ ih

theorem leAsc_trans : ∀ a b c, leAsc a b = true → leAsc b c = true → leAsc a c = true := by
  intro a b c h1 h2
  simp only [leAsc, decide_eq_true_eq] at h1 h2 ⊢
  exact le_trans h1 h2

theorem leAsc_total : ∀ a b, leAsc a b = true ∨ leAsc b a = true := by
  intro a b
  simp only [leAsc, decide_eq_true_eq]
  exact le_total a.price b.price

theorem leDesc_trans : ∀ a b c, leDesc a b = true → leDesc b c = true → leDesc a c = true := by
  intro a b c h1 h2
  simp only [leDesc, decide_eq_true_eq] at h1 h2 ⊢
  exact le_trans h2 h1

theorem leDesc_total : ∀ a b, leDesc a b = true ∨ leDesc b a = true := by
  intro a b
  simp only [leDesc, decide_eq_true_eq]
  exact le_total b.price a.price

theorem sortLevels_perm (side : Side) (ob : Orderbook) :
    (sortLevels side ob).Perm (opposing side ob) := by
  cases side <;> simp only [sortLevels, opposing] <;> exact sortByLe_perm _ _

theorem sortLevels_sorted_buy (ob : Orderbook) :
    (sortLevels .buy ob).Pairwise (fun a b => a.price ≤ b.price) := by
  have h := sortByLe_pairwise leAsc leAsc_trans leAsc_total ob.asks
  simp only [sortLevels]
  exact h.imp (by intro a b hab; simpa [leAsc] using hab)

theorem sortLevels_sorted_sell (ob : Orderbook) :
    (sortLevels .sell ob).Pairwise (fun a b => b.price ≤ a.price) := by
  have h := sortByLe_pairwise leDesc leDesc_trans leDesc_total ob.bids
  simp only [sortLevels]
  exact h.imp (by intro a b hab; simpa [leDesc] using hab)

theorem sortLevels_buy_head (ob : Orderbook) (L : Level) (rest : List Level)
    (h : sortLevels .buy ob = L :: rest) : minPrice ob.asks = .ok L.price := by
  have hperm : (sortLevels .buy ob).Perm ob.asks := sortLevels_perm .buy ob
  have hsort := sortLevels_sorted_buy ob
  rw [h] at hperm hsort
  rcases List.pairwise_cons.mp hsort with ⟨hub, _⟩
  rw [minPrice, listMin_ok_iff]
  constructor
  · exact List.mem_map_of_mem Level.price (hperm.mem_iff.mp (List.mem_cons_self L rest))
  · intro x hx
    rcases List.mem_map.mp hx with ⟨M, hM, rfl⟩
    have hM2 : M ∈ L :: rest := hperm.mem_iff.mpr hM
    rcases List.mem_cons.mp hM2 with rfl | hM3
    · exact le_refl _
    · exact hub M hM3

theorem sortLevels_sell_head (ob : Orderbook) (L : Level) (rest : List Level)
    (h : sortLevels .sell ob = L :: rest) : maxPrice ob.bids = .ok L.price := by
  have hperm : (sortLevels .sell ob).Perm ob.bids := sortLevels_perm .sell ob
  have hsort := sortLevels_sorted_sell ob
  rw [h] at hperm hsort
  rcases List.pairwise_cons.mp hsort with ⟨hub, _⟩
  rw [maxPrice, listMax_ok_iff]
  constructor
  · exact List.mem_map_of_mem Level.price (hperm.mem_iff.mp (List.mem_cons_self L rest))
  · intro x hx
    rcases List.mem_map.mp hx with ⟨M, hM, rfl⟩
    have hM2 : M ∈ L :: rest := hperm.mem_iff.mpr hM
    rcases List.mem_cons.mp hM2 with rfl | hM3
    · exact le_refl _
    · exact hub M hM3

/-! ### Walk lemmas -/

theorem walkLevels_eq_walkPure (l : List Level) :
    ∀ r w : ℚ, 0 < r → (∀ L ∈ l, 0 ≤ L.price ∧ 0 ≤ L.qty) →
      walkLevels r w l = .ok (walkPure r w l) := by
  induction l with
  | nil => intro r w _ _; rfl
  | cons L ls ih =>
    intro r w hr hl
    have hL := hl L (List.mem_cons_self L ls)
    have hls : ∀ M ∈ ls, 0 ≤ M.price ∧ 0 ≤ M.qty :=
      fun M hM => hl M (List.mem_cons_of_mem L hM)
    simp only [walkLevels, walkPure]
    split_ifs with hbr hp
    · exfalso
      rw [hp] at hbr
      simp only [zero_mul] at hbr
      exact absurd (lt_of_lt_of_le hr hbr) (lt_irrefl 0)
    · rfl
    · rw [ih (r - L.price * L.qty) L.price (by linarith [not_le.mp hbr]) hls]

theorem depthUsd_nonneg (l : List Level)
    (hl : ∀ L ∈ l, 0 ≤ L.price ∧ 0 ≤ L.qty) : 0 ≤ depthUsd l := by
  induction l with
  | nil => simp [depthUsd]
  | cons L ls ih =>
    have hL := hl L (List.mem_cons_self L ls)
    have hls := ih fun M hM => hl M (List.mem_cons_of_mem L hM)
    simp only [depthUsd, List.map_cons, List.sum_cons]
    have : 0 ≤ L.price * L.qty := mul_nonneg hL.1 hL.2
    simp only [depthUsd] at hls
    linarith

theorem walkPure_cost_remaining (l : List Level) :
    ∀ r w : ℚ, 0 < r → (∀ L ∈ l, 0 ≤ L.price ∧ 0 ≤ L.qty) →
      (walkPure r w l).totalCost = min r (depthUsd l) ∧
        (walkPure r w l).remaining = r - min r (depthUsd l) := by
  induction l with
  | nil =>
    intro r w hr _
    simp [walkPure, depthUsd, min_eq_right (le_of_lt hr)]
  | cons L ls ih =>
    intro r w hr hl
    have hL := hl L (List.mem_cons_self L ls)
    have hls : ∀ M ∈ ls, 0 ≤ M.price ∧ 0 ≤ M.qty :=
      fun M hM => hl M (List.mem_cons_of_mem L hM)
    have hv : 0 ≤ L.price * L.qty := mul_nonneg hL.1 hL.2
    have hD : 0 ≤ depthUsd ls := depthUsd_nonneg ls hls
    have hdepth : depthUsd (L :: ls) = L.price * L.qty + depthUsd ls := by
      simp [depthUsd]
    simp only [walkPure]
    split_ifs with hbr
    · have hmin : min r (depthUsd (L :: ls)) = r := by
        rw [hdepth]
        exact min_eq_left (by linarith)
      simp [hmin]
    · have hlt : L.price * L.qty < r := not_le.mp hbr
      obtain ⟨hc, hrem⟩ := ih (r - L.price * L.qty) L.price (by linarith) hls
      have hmin : min r (depthUsd (L :: ls)) =
          L.price * L.qty + min (r - L.price * L.qty) (depthUsd ls) := by
        rw [hdepth]
        rcases le_total (r - L.price * L.qty) (depthUsd ls) with h | h
        · rw [min_eq_left h, min_eq_left (by linarith)]
          ring
        · rw [min_eq_right h, min_eq_right (by linarith)]
      constructor
      · simp only [hc, hmin]
      · simp only [hrem, hmin]
        ring

theorem walkPure_qty_lower (l : List Level) :
    ∀ r w c : ℚ, 0 < r → 0 ≤ c → (∀ L ∈ l, c ≤ L.price ∧ 0 ≤ L.qty) →
      c * (walkPure r w l).totalQty ≤ (walkPure r w l).totalCost ∧
        0 ≤ (walkPure r w l).totalQty := by
  induction l with
  | nil => intro r w c _ _ _; simp [walkPure]
  | cons L ls ih =>
    intro r w c hr hc hl
    have hL := hl L (List.mem_cons_self L ls)
    have hls : ∀ M ∈ ls, c ≤ M.price ∧ 0 ≤ M.qty :=
      fun M hM => hl M (List.mem_cons_of_mem L hM)
    simp only [walkPure]
    split_ifs with hbr
    · have hp : 0 < L.price := by
        rcases lt_or_eq_of_le (le_trans hc hL.1) with h | h
        · exact h
        · exfalso
          rw [← h, zero_mul] at hbr
          exact absurd (lt_of_lt_of_le hr hbr) (lt_irrefl 0)
      have hq : 0 ≤ r / L.price := div_nonneg (le_of_lt hr) (le_of_lt hp)
      refine ⟨?_, hq⟩
      calc c * (r / L.price) ≤ L.price * (r / L.price) :=
            mul_le_mul_of_nonneg_right hL.1 hq
        _ = r := by field_simp
    · have hlt : L.price * L.qty < r := not_le.mp hbr
      obtain ⟨h1, h2⟩ := ih (r - L.price * L.qty) L.price c (by linarith) hc hls
      have hcq : c * L.qty ≤ L.price * L.qty :=
        mul_le_mul_of_nonneg_right hL.1 hL.2
      refine ⟨?_, by simp only []; linarith [hL.2]⟩
      simp only []
      calc c * (L.qty + (walkPure (r - L.price * L.qty) L.price ls).totalQty)
          = c * L.qty + c * (walkPure (r - L.price * L.qty) L.price ls).totalQty := by ring
        _ ≤ L.price * L.qty + (walkPure (r - L.price * L.qty) L.price ls).totalCost := by
            linarith

theorem walkPure_qty_upper (l : List Level) :
    ∀ r w C : ℚ, 0 < r → (∀ L ∈ l, 0 ≤ L.price ∧ L.price ≤ C ∧ 0 ≤ L.qty) →
      (walkPure r w l).totalCost ≤ C * (walkPure r w l).totalQty := by
  induction l with
  | nil => intro r w C _ _; simp [walkPure]
  | cons L ls ih =>
    intro r w C hr hl
    have hL := hl L (List.mem_cons_self L ls)
    have hls : ∀ M ∈ ls, 0 ≤ M.price ∧ M.price ≤ C ∧ 0 ≤ M.qty :=
      fun M hM => hl M (List.mem_cons_of_mem L hM)
    simp only [walkPure]
    split_ifs with hbr
    · have hp : 0 < L.price := by
        rcases lt_or_eq_of_le hL.1 with h | h
        · exact h
        · exfalso
          rw [← h, zero_mul] at hbr
          exact absurd (lt_of_lt_of_le hr hbr) (lt_irrefl 0)
      have hq : 0 ≤ r / L.price := div_nonneg (le_of_lt hr) (le_of_lt hp)
      calc r = L.price * (r / L.price) := by field_simp
        _ ≤ C * (r / L.price) := mul_le_mul_of_nonneg_right hL.2.1 hq
    · have hlt : L.price * L.qty < r := not_le.mp hbr
      have h1 := ih (r - L.price * L.qty) L.price C (by linarith) hls
      have hcq : L.price * L.qty ≤ C * L.qty :=
        mul_le_mul_of_nonneg_right hL.2.1 hL.2.2
      simp only []
      calc L.price * L.qty + (walkPure (r - L.price * L.qty) L.price ls).totalCost
          ≤ C * L.qty + C * (walkPure (r - L.price * L.qty) L.price ls).totalQty := by
            linarith
        _ = C * (L.qty + (walkPure (r - L.price * L.qty) L.price ls).totalQty) := by ring

theorem walkPure_qty_pos (l : List Level) :
    ∀ r w : ℚ, 0 < r → (∀ L ∈ l, 0 ≤ L.price ∧ 0 ≤ L.qty) → 0 < depthUsd l →
      0 < (walkPure r w l).totalQty := by
  induction l with
  | nil => intro r w _ _ hD; simp [depthUsd] at hD
  | cons L ls ih =>
    intro r w hr hl hD
    have hL := hl L (List.mem_cons_self L ls)
    have hls : ∀ M ∈ ls, 0 ≤ M.price ∧ 0 ≤ M.qty :=
      fun M hM => hl M (List.mem_cons_of_mem L hM)
    simp only [walkPure]
    split_ifs with hbr
    · have hp : 0 < L.price := by
        rcases lt_or_eq_of_le hL.1 with h | h
        · exact h
        · exfalso
          rw [← h, zero_mul] at hbr
          exact absurd (lt_of_lt_of_le hr hbr) (lt_irrefl 0)
      exact div_pos hr hp
    · have hlt : L.price * L.qty < r := not_le.mp hbr
      have hqn : 0 ≤ (walkPure (r - L.price * L.qty) L.price ls).totalQty :=
        (walkPure_qty_lower ls (r - L.price * L.qty) L.price 0 (by linarith)
          (le_refl 0) (fun M hM => ⟨(hls M hM).1, (hls M hM).2⟩)).2
      simp only []
      rcases lt_or_le 0 (depthUsd ls) with hDls | hDls
      · have := ih (r - L.price * L.qty) L.price (by linarith) hls hDls
        linarith [hL.2]
      · have hDeq : depthUsd ls = 0 :=
          le_antisymm hDls (depthUsd_nonneg ls hls)
        have hv : 0 < L.price * L.qty := by
          have hdepth : depthUsd (L :: ls) = L.price * L.qty + depthUsd ls := by
            simp [depthUsd]
          rw [hdepth, hDeq, add_zero] at hD
          exact hD
        have hq : 0 < L.qty := by
          rcases lt_or_eq_of_le hL.2 with h | h
          · exact h
          · exfalso; rw [← h, mul_zero] at hv; exact lt_irrefl 0 hv
        linarith

/-! ### Aggregation of equal-price levels (for permutation invariance) -/

theorem aggLevels_eq_nil_iff (l : List Level) : aggLevels l = [] ↔ l = [] := by
  cases l with
  | nil => simp [aggLevels]
  | cons L ls =>
    simp only [aggLevels]
    constructor
    · intro h
      cases hls : aggLevels ls with
      | nil => rw [hls] at h; exact absurd h (by simp)
      | cons M ms =>
        rw [hls] at h
        by_cases hp : L.price = M.price <;> simp [hp] at h
    · intro h; exact absurd h (by simp)

theorem aggLevels_head_price (L : Level) (ls : List Level) :
    ∃ q ks, aggLevels (L :: ls) = ⟨L.price, q⟩ :: ks := by
  simp only [aggLevels]
  cases hls : aggLevels ls with
  | nil => exact ⟨L.qty, [], rfl⟩
  | cons M ms =>
    by_cases hp : L.price = M.price
    · simp only [hp, if_true]
      exact ⟨L.qty + M.qty, ms, rfl⟩
    · simp only [hp, if_false]
      exact ⟨L.qty, M :: ms, rfl⟩

theorem aggLevels_mem_bounds (l : List Level) :
    ∀ K ∈ aggLevels l, (∃ M ∈ l, M.price = K.price) ∧
      ((∀ L ∈ l, 0 ≤ L.qty) → 0 ≤ K.qty) := by
  induction l with
  | nil => simp [aggLevels]
  | cons L ls ih =>
    intro K hK
    simp only [aggLevels] at hK
    cases hls : aggLevels ls with
    | nil =>
      rw [hls] at hK
      have hKL : K = L := List.mem_singleton.mp hK
      subst hKL
      exact ⟨⟨K, List.mem_cons_self K ls, rfl⟩,
        fun h => h K (List.mem_cons_self K ls)⟩
    | cons M ms =>
      rw [hls] at hK
      have hM := ih M (hls ▸ List.mem_cons_self M ms)
      by_cases hp : L.price = M.price
      · simp only [hp, if_true] at hK
        rcases List.mem_cons.mp hK with rfl | hK2
        · refine ⟨⟨L, List.mem_cons_self L ls, hp⟩, fun h => ?_⟩
          have h1 : 0 ≤ L.qty := h L (List.mem_cons_self L ls)
          have h2 : 0 ≤ M.qty :=
            hM.2 fun X hX => h X (List.mem_cons_of_mem L hX)
          simp only []
          linarith
        · have := ih K (hls ▸ List.mem_cons_of_mem M hK2)
          exact ⟨this.1.imp fun X hX => ⟨List.mem_cons_of_mem L hX.1, hX.2⟩,
            fun h => this.2 fun X hX => h X (List.mem_cons_of_mem L hX)⟩
      · simp only [hp, if_false] at hK
        rcases List.mem_cons.mp hK with rfl | hK2
        · exact ⟨⟨K, List.mem_cons_self K ls, rfl⟩,
            fun h => h K (List.mem_cons_self K ls)⟩
        · have := ih K (hls ▸ hK2)
          exact ⟨this.1.imp fun X hX => ⟨List.mem_cons_of_mem L hX.1, hX.2⟩,
            fun h => this.2 fun X hX => h X (List.mem_cons_of_mem L hX)⟩

theorem walkPure_nil (r w : ℚ) : walkPure r w [] = ⟨0, 0, r, w⟩ := rfl

theorem walkPure_cons (r w : ℚ) (L : Level) (ls : List Level) :
    walkPure r w (L :: ls) =
      if r ≤ L.price * L.qty then ⟨r / L.price, r, 0, L.price⟩
      else ⟨L.qty + (walkPure (r - L.price * L.qty) L.price ls).totalQty,
            L.price * L.qty + (walkPure (r - L.price * L.qty) L.price ls).totalCost,
            (walkPure (r - L.price * L.qty) L.price ls).remaining,
            (walkPure (r - L.price * L.qty) L.price ls).worst⟩ := rfl

theorem walkPure_agg (l : List Level) :
    ∀ r w : ℚ, 0 < r → (∀ L ∈ l, 0 ≤ L.price ∧ 0 ≤ L.qty) →
      walkPure r w l = walkPure r w (aggLevels l) := by
  induction l with
  | nil => intro r w _ _; rfl
  | cons L ls ih =>
    intro r w hr hl
    have hL := hl L (List.mem_cons_self L ls)
    have hls : ∀ M ∈ ls, 0 ≤ M.price ∧ 0 ≤ M.qty :=
      fun M hM => hl M (List.mem_cons_of_mem L hM)
    cases hagg : aggLevels ls with
    | nil =>
      have hnil : ls = [] := (aggLevels_eq_nil_iff ls).mp hagg
      subst hnil
      rfl
    | cons M ms =>
      have hmemM : M ∈ aggLevels ls := hagg ▸ List.mem_cons_self M ms
      have hMq : 0 ≤ M.qty :=
        (aggLevels_mem_bounds ls M hmemM).2 fun X hX => (hls X hX).2
      by_cases hp : L.price = M.price
      · have hout : aggLevels (L :: ls) = ⟨L.price, L.qty + M.qty⟩ :: ms := by
          simp only [aggLevels, hagg, if_pos hp]
        rw [hout]
        by_cases hbr : r ≤ L.price * L.qty
        · have hbr2 : r ≤ L.price * (L.qty + M.qty) := by
            have hstep : L.price * L.qty ≤ L.price * (L.qty + M.qty) := by
              apply mul_le_mul_of_nonneg_left _ hL.1
              linarith
            linarith
          rw [walkPure_cons, walkPure_cons, if_pos hbr, if_pos hbr2]
        · have hlt : L.price * L.qty < r := not_le.mp hbr
          have hih : walkPure (r - L.price * L.qty) L.price ls =
              walkPure (r - L.price * L.qty) L.price (M :: ms) := by
            rw [← hagg]
            exact ih _ _ (by linarith) hls
          by_cases hbr2 : r ≤ L.price * (L.qty + M.qty)
          · have hppos : 0 < L.price := by
              rcases lt_or_eq_of_le hL.1 with h | h
              · exact h
              · exfalso
                rw [← h, zero_mul] at hbr2
                linarith
            have hexp : L.price * (L.qty + M.qty) =
                L.price * L.qty + L.price * M.qty := by ring
            have hvM : r - L.price * L.qty ≤ M.price * M.qty := by
              rw [← hp]
              linarith
            rw [walkPure_cons, walkPure_cons, if_neg hbr, if_pos hbr2, hih,
              walkPure_cons, if_pos hvM]
            simp only [Walk.mk.injEq]
            refine ⟨?_, by ring, trivial, hp.symm⟩
            rw [← hp]
            field_simp
            ring
          · have hexp : L.price * (L.qty + M.qty) =
                L.price * L.qty + L.price * M.qty := by ring
            have hvM : ¬ (r - L.price * L.qty ≤ M.price * M.qty) := by
              rw [← hp]
              intro hc
              exact hbr2 (by linarith)
            rw [walkPure_cons, walkPure_cons, if_neg hbr, if_neg hbr2, hih,
              walkPure_cons, if_neg hvM]
            have hMP : M.price = L.price := hp.symm
            rw [hMP]
            have harg : r - L.price * L.qty - L.price * M.qty =
                r - L.price * (L.qty + M.qty) := by ring
            rw [harg]
            simp only [Walk.mk.injEq]
            exact ⟨by ring, by ring, trivial, trivial⟩
      · have hout : aggLevels (L :: ls) = L :: M :: ms := by
          simp only [aggLevels, hagg, if_neg hp]
        rw [hout, ← hagg, walkPure_cons, walkPure_cons]
        by_cases hbr : r ≤ L.price * L.qty
        · rw [if_pos hbr, if_pos hbr]
        · rw [if_neg hbr, if_neg hbr,
            ih _ _ (by linarith [not_le.mp hbr]) hls]

theorem sumQty_perm {l1 l2 : List Level} (h : l1.Perm l2) : sumQty l1 = sumQty l2 :=
  (h.map Level.qty).sum_eq

theorem aggLevels_cons (L : Level) (ls : List Level) :
    aggLevels (L :: ls) = match aggLevels ls with
      | [] => [L]
      | M :: ms => if L.price = M.price then ⟨L.price, L.qty + M.qty⟩ :: ms
                   else L :: M :: ms := rfl

theorem aggLevels_block (f : Level → ℚ)
    (hf : ∀ a b : Level, f a = f b ↔ a.price = b.price) :
    ∀ (ls : List Level) (L : Level),
      (L :: ls).Pairwise (fun a b => f a ≤ f b) →
      aggLevels (L :: ls) =
        ⟨L.price, sumQty ((L :: ls).filter (fun x => decide (x.price = L.price)))⟩ ::
          aggLevels ((L :: ls).filter (fun x => decide (¬ x.price = L.price))) := by
  intro ls
  induction ls with
  | nil =>
    intro L _
    simp [aggLevels, sumQty, List.filter]
  | cons M ms ih =>
    intro L hsort
    rcases List.pairwise_cons.mp hsort with ⟨hub, hsort2⟩
    have hLM : f L ≤ f M := hub M (List.mem_cons_self M ms)
    have hLtrue : (decide (L.price = L.price)) = true := by simp
    have hLfalse : (decide (¬ L.price = L.price)) = false := by simp
    by_cases hp : M.price = L.price
    · have hblock := ih M hsort2
      have hpredEq : ∀ x ∈ M :: ms,
          (decide (x.price = M.price)) = (decide (x.price = L.price)) := by
        intro x _
        rw [hp]
      have hpredNe : ∀ x ∈ M :: ms,
          (decide (¬ x.price = M.price)) = (decide (¬ x.price = L.price)) := by
        intro x _
        rw [hp]
      have hout : aggLevels (L :: M :: ms) =
          ⟨L.price, L.qty + sumQty ((M :: ms).filter
            (fun x => decide (x.price = M.price)))⟩ ::
          aggLevels ((M :: ms).filter (fun x => decide (¬ x.price = M.price))) := by
        rw [aggLevels_cons, hblock]
        dsimp only
        rw [if_pos hp.symm]
      rw [hout]
      have hfL : (L :: M :: ms).filter (fun x => decide (x.price = L.price)) =
          L :: (M :: ms).filter (fun x => decide (x.price = L.price)) := by
        rw [List.filter_cons, hLtrue]
        simp
      have hfNe : (L :: M :: ms).filter (fun x => decide (¬ x.price = L.price)) =
          (M :: ms).filter (fun x => decide (¬ x.price = L.price)) := by
        rw [List.filter_cons, hLfalse]
        simp
      rw [hfL, hfNe, ← List.filter_congr hpredEq, ← List.filter_congr hpredNe]
      simp [sumQty]
    · have hnone : ∀ x ∈ M :: ms, ¬ x.price = L.price := by
        intro x hx hxp
        have hMx : f M ≤ f x := by
          rcases List.mem_cons.mp hx with rfl | hx2
          · exact le_refl _
          · exact (List.pairwise_cons.mp hsort2).1 x hx2
        have hxL : f x = f L := (hf x L).mpr hxp
        have hML : f M = f L := le_antisymm (hxL ▸ hMx) hLM
        exact hp ((hf M L).mp hML)
      have hfL : (L :: M :: ms).filter (fun x => decide (x.price = L.price)) = [L] := by
        rw [List.filter_cons, hLtrue]
        simp only [if_true]
        have hnil : (M :: ms).filter (fun x => decide (x.price = L.price)) = [] := by
          apply List.filter_eq_nil_iff.mpr
          intro x hx
          simpa using hnone x hx
        rw [hnil]
      have hfNe : (L :: M :: ms).filter (fun x => decide (¬ x.price = L.price)) =
          M :: ms := by
        rw [List.filter_cons, hLfalse]
        simp only [Bool.false_eq_true, if_false]
        apply List.filter_eq_self.mpr
        intro x hx
        simpa using hnone x hx
      obtain ⟨q, ks, hhead⟩ := aggLevels_head_price M ms
      have hout : aggLevels (L :: M :: ms) = L :: aggLevels (M :: ms) := by
        rw [aggLevels_cons, hhead]
        dsimp only
        rw [if_neg (fun hc => hp hc.symm), ← hhead]
      rw [hout, hfL, hfNe]
      simp [sumQty]

theorem aggLevels_eq_of_perm_sorted (f : Level → ℚ)
    (hf : ∀ a b : Level, f a = f b ↔ a.price = b.price) :
    ∀ (n : ℕ) (l1 l2 : List Level), l1.length ≤ n → l1.Perm l2 →
      l1.Pairwise (fun a b => f a ≤ f b) → l2.Pairwise (fun a b => f a ≤ f b) →
      aggLevels l1 = aggLevels l2 := by
  intro n
  induction n with
  | zero =>
    intro l1 l2 hlen hperm _ _
    have h1 : l1 = [] := List.length_eq_zero.mp (Nat.le_zero.mp hlen)
    subst h1
    have h2 : l2 = [] := hperm.symm.eq_nil
    subst h2
    rfl
  | succ n ih =>
    intro l1 l2 hlen hperm hs1 hs2
    cases l1 with
    | nil =>
      have h2 : l2 = [] := hperm.symm.eq_nil
      subst h2
      rfl
    | cons L t1 =>
      cases l2 with
      | nil => simp at hperm
      | cons M t2 =>
        rcases List.pairwise_cons.mp hs1 with ⟨hub1, hs1t⟩
        rcases List.pairwise_cons.mp hs2 with ⟨hub2, hs2t⟩
        have hLM : L.price = M.price := by
          have hLmem : L ∈ M :: t2 := hperm.mem_iff.mp (List.mem_cons_self L t1)
          have hMmem : M ∈ L :: t1 := hperm.mem_iff.mpr (List.mem_cons_self M t2)
          have h1 : f M ≤ f L := by
            rcases List.mem_cons.mp hLmem with rfl | h
            · exact le_refl _
            · exact hub2 L h
          have h2 : f L ≤ f M := by
            rcases List.mem_cons.mp hMmem with rfl | h
            · exact le_refl _
            · exact hub1 M h
          exact (hf L M).mp (le_antisymm h2 h1)
        have hpredEq : ∀ x ∈ M :: t2,
            (decide (x.price = M.price)) = (decide (x.price = L.price)) := by
          intro x _
          rw [hLM]
        have hpredNe : ∀ x ∈ M :: t2,
            (decide (¬ x.price = M.price)) = (decide (¬ x.price = L.price)) := by
          intro x _
          rw [hLM]
        rw [aggLevels_block f hf t1 L hs1, aggLevels_block f hf t2 M hs2,
          List.filter_congr hpredEq, List.filter_congr hpredNe]
        congr 1
        · simp only [Level.mk.injEq]
          exact ⟨hLM, sumQty_perm (hperm.filter _)⟩
        · apply ih
          · have hhd : (decide (¬ L.price = L.price)) = false := by simp
            have hlef : ((L :: t1).filter
                (fun x => decide (¬ x.price = L.price))).length ≤ t1.length := by
              rw [List.filter_cons, hhd]
              simp only [Bool.false_eq_true, if_false]
              exact List.length_filter_le _ t1
            have hlen2 : t1.length ≤ n := by
              simpa using Nat.le_of_succ_le_succ hlen
            exact le_trans hlef hlen2
          · exact hperm.filter _
          · exact hs1.filter _
          · exact hs2.filter _

theorem walkLevels_sortLevels_eq (ob1 ob2 : Orderbook) (side : Side) (size : ℚ)
    (hb : ob1.bids.Perm ob2.bids) (ha : ob1.asks.Perm ob2.asks)
    (hnn : ∀ L ∈ ob1.bids ++ ob1.asks, 0 ≤ L.price ∧ 0 ≤ L.qty)
    (hs : 0 < size) :
    ∀ w : ℚ, walkLevels size w (sortLevels side ob1) =
      walkLevels size w (sortLevels side ob2) := by
  intro w
  have hOpp : (opposing side ob1).Perm (opposing side ob2) := by
    cases side
    · exact ha
    · exact hb
  have hlev : (sortLevels side ob1).Perm (sortLevels side ob2) :=
    (sortLevels_perm side ob1).trans (hOpp.trans (sortLevels_perm side ob2).symm)
  have hmem1 : ∀ L ∈ sortLevels side ob1, L ∈ ob1.bids ++ ob1.asks := by
    intro L hL
    have hop : L ∈ opposing side ob1 := (sortLevels_perm side ob1).mem_iff.mp hL
    cases side
    · exact List.mem_append_right _ hop
    · exact List.mem_append_left _ hop
  have hnn1 : ∀ L ∈ sortLevels side ob1, 0 ≤ L.price ∧ 0 ≤ L.qty :=
    fun L hL => hnn L (hmem1 L hL)
  have hnn2 : ∀ L ∈ sortLevels side ob2, 0 ≤ L.price ∧ 0 ≤ L.qty := by
    intro L hL
    exact hnn1 L (hlev.mem_iff.mpr hL)
  rw [walkLevels_eq_walkPure _ size w hs hnn1,
    walkLevels_eq_walkPure _ size w hs hnn2]
  have hagg : aggLevels (sortLevels side ob1) = aggLevels (sortLevels side ob2) := by
    cases side with
    | buy =>
      apply aggLevels_eq_of_perm_sorted (fun L => L.price) (fun a b => Iff.rfl)
        (sortLevels .buy ob1).length _ _ (le_refl _) hlev
      · exact sortLevels_sorted_buy ob1
      · exact sortLevels_sorted_buy ob2
    | sell =>
      apply aggLevels_eq_of_perm_sorted (fun L => -L.price) (fun a b => neg_inj)
        (sortLevels .sell ob1).length _ _ (le_refl _) hlev
      · exact (sortLevels_sorted_sell ob1).imp fun h => neg_le_neg h
      · exact (sortLevels_sorted_sell ob2).imp fun h => neg_le_neg h
  rw [walkPure_agg _ size w hs hnn1, walkPure_agg _ size w hs hnn2, hagg]

/-- C9: `calculate_slippage` is invariant under permutation of the bid and
ask lists of its input book (for books satisfying the data-model invariant
of non-negative prices and quantities, and a positive notional).  The
function sorts the opposing side internally and takes best bid and ask by
`max`/`min` over the full lists, so no output component can depend on the
order in which the levels arrive. -/
theorem calculate_slippage_perm_invariant (ob1 ob2 : Orderbook) (size : ℚ)
    (side : Side) (hb : ob1.bids.Perm ob2.bids) (ha : ob1.asks.Perm ob2.asks)
    (hnn : ∀ L ∈ ob1.bids ++ ob1.asks, 0 ≤ L.price ∧ 0 ≤ L.qty)
    (hs : 0 < size) :
    calculate_slippage ob1 size side = calculate_slippage ob2 size side := by
  have hOpp : (opposing side ob1).Perm (opposing side ob2) := by
    cases side
    · exact ha
    · exact hb
  have hlev : (sortLevels side ob1).Perm (sortLevels side ob2) :=
    (sortLevels_perm side ob1).trans (hOpp.trans (sortLevels_perm side ob2).symm)
  by_cases hlen : (sortLevels side ob1).length = 0
  · have hlen2 : (sortLevels side ob2).length = 0 := by
      rw [← hlev.length_eq]
      exact hlen
    simp only [calculate_slippage, if_pos hlen, if_pos hlen2]
  · have hlen2 : ¬ (sortLevels side ob2).length = 0 := by
      rw [← hlev.length_eq]
      exact hlen
    have hw := walkLevels_sortLevels_eq ob1 ob2 side size hb ha hnn hs
    simp only [calculate_slippage, if_neg hlen, if_neg hlen2,
      maxPrice_eq_of_perm hb, minPrice_eq_of_perm ha, hw]

/-- Witness for C9 at a concrete book and a reordering of both sides. -/
theorem calculate_slippage_perm_invariant_witness :
    calculate_slippage ⟨[⟨100,1⟩,⟨99,2⟩],[⟨101,1⟩,⟨102,2⟩]⟩ 1000 Side.buy =
      calculate_slippage ⟨[⟨99,2⟩,⟨100,1⟩],[⟨102,2⟩,⟨101,1⟩]⟩ 1000 Side.buy :=
  calculate_slippage_perm_invariant _ _ 1000 Side.buy (by decide) (by decide)
    (by decide) (by decide)

/-- C5: whenever the side-selected opposing level list is empty,
`calculate_slippage` returns the
`{"slippage": None, "filled": False, "error": "No liquidity"}` dict and
raises no exception, for every book, notional size and side. -/
theorem empty_opposing_no_liquidity (ob : Orderbook) (size : ℚ) (side : Side)
    (h : opposing side ob = []) :
    calculate_slippage ob size side = .ok noLiquidityResult := by
  have hlev : sortLevels side ob = [] := by
    cases side
    · simp only [opposing] at h
      simp [sortLevels, h, sortByLe]
    · simp only [opposing] at h
      simp [sortLevels, h, sortByLe]
  simp [calculate_slippage, hlev]

/-- Witness for C5: a book with bids but no asks, queried on the buy side. -/
theorem empty_opposing_no_liquidity_witness :
    calculate_slippage ⟨[⟨1,1⟩],[]⟩ 5 Side.buy = .ok noLiquidityResult :=
  empty_opposing_no_liquidity ⟨[⟨1,1⟩],[]⟩ 5 Side.buy rfl

/-- The message of the `ValueError` raised by `max()` (buy path reaches it
first via `best_bid`) or `min()` (sell path, `best_bid` having succeeded). -/
def emptySeqError (side : Side) : String :=
  match side with
  | .buy => "ValueError: max() arg is an empty sequence"
  | .sell => "ValueError: min() arg is an empty sequence"

/-- The side of the book NOT consumed by the simulated taker order. -/
def sameSide (side : Side) (ob : Orderbook) : List Level :=
  match side with
  | .buy => ob.bids
  | .sell => ob.asks

/-- C10: when the opposing side is nonempty but the other side is empty,
`calculate_slippage` reaches `max()`/`min()` over an empty sequence and
raises `ValueError` instead of returning a No-liquidity result. -/
theorem one_sided_book_raises (ob : Orderbook) (size : ℚ) (side : Side)
    (hopp : opposing side ob ≠ []) (hother : sameSide side ob = []) :
    calculate_slippage ob size side = .exn (emptySeqError side) := by
  have hlen : ¬ (sortLevels side ob).length = 0 := by
    intro hc
    apply hopp
    rw [List.length_eq_zero] at hc
    have hperm := sortLevels_perm side ob
    rw [hc] at hperm
    exact (hperm.symm.eq_nil)
  cases side with
  | buy =>
    simp only [sameSide] at hother
    have hmax : maxPrice ob.bids = .exn ("ValueError: max() arg is an empty sequence") := by
      rw [hother]
      rfl
    simp only [calculate_slippage, if_neg hlen, hmax]
    rfl
  | sell =>
    simp only [sameSide] at hother
    cases hbids : ob.bids with
    | nil =>
      exfalso
      exact hopp (by simp [opposing, hbids])
    | cons B bs =>
      have hmax : maxPrice ob.bids = .ok ((bs.map Level.price).foldl max B.price) := by
        rw [hbids]
        rfl
      have hmin : minPrice ob.asks = .exn ("ValueError: min() arg is an empty sequence") := by
        rw [hother]
        rfl
      simp only [calculate_slippage, if_neg hlen, hmax, hmin]
      rfl

/-- Witness for C10: nonempty asks, empty bids, buy side. -/
theorem one_sided_book_raises_witness :
    calculate_slippage ⟨[],[⟨1,1⟩]⟩ 5 Side.buy =
      .exn ("ValueError: max() arg is an empty sequence") :=
  one_sided_book_raises ⟨[],[⟨1,1⟩]⟩ 5 Side.buy (by simp [opposing]) rfl

/-- Division helper: when the denominator is nonzero `pyDiv` succeeds. -/
theorem pyDiv_ok (a b : ℚ) (h : b ≠ 0) : pyDiv a b = .ok (a / b) := by
  simp [pyDiv, h]

theorem fillFromWalk_full (size mid bp : ℚ) (side : Side) (o : Walk)
    (hrem : ¬ 0 < o.remaining) (hbp : bp ≠ 0) (hmid : mid ≠ 0)
    (htq : o.totalQty ≠ 0) :
    ∃ fr, fillFromWalk size mid bp side o = .ok fr ∧ fr.filled = true ∧
      fr.filledPercent = some 100 := by
  unfold fillFromWalk
  rw [pyDiv_ok _ _ hbp]
  dsimp only
  rw [if_neg hrem, pyDiv_ok _ _ htq]
  dsimp only
  rw [pyDiv_ok _ _ hmid]
  exact ⟨_, rfl, rfl, rfl⟩

theorem fillFromWalk_notfull (size mid bp : ℚ) (side : Side) (o : Walk)
    (hrem : 0 < o.remaining) (hbp : bp ≠ 0) (hmid : mid ≠ 0) (hsz : size ≠ 0) :
    ∃ fr, fillFromWalk size mid bp side o = .ok fr ∧ fr.filled = false := by
  unfold fillFromWalk
  rw [pyDiv_ok _ _ hbp]
  dsimp only
  rw [if_pos hrem, pyDiv_ok _ _ hsz]
  dsimp only
  by_cases hq0 : o.totalQty = 0
  · rw [if_pos hq0]
    exact ⟨noLiquidityZeroQty, rfl, rfl⟩
  · rw [if_neg hq0, pyDiv_ok _ _ hq0]
    dsimp only
    rw [pyDiv_ok _ _ hmid]
    exact ⟨_, rfl, rfl⟩

/-- Direction-dependent bound relating mid price, total cost and total
quantity: a buy walks levels at or above the best ask, a sell at or below
the best bid. -/
def sideBound (side : Side) (mid tc tq : ℚ) : Prop :=
  match side with
  | .buy => mid * tq ≤ tc
  | .sell => tc ≤ mid * tq

theorem fillFromWalk_slippage_nonneg (size mid bp : ℚ) (side : Side) (o : Walk)
    (fr : FillResult) (v : ℚ)
    (hok : fillFromWalk size mid bp side o = .ok fr)
    (hv : fr.slippage = some v) (hmid : 0 < mid) (hq : 0 ≤ o.totalQty)
    (hbound : sideBound side mid o.totalCost o.totalQty) : 0 ≤ v := by
  have hslq : ∀ tc tq : ℚ, 0 < tq → sideBound side mid tc tq →
      0 ≤ sideNum side mid (tc / tq) / mid * 100 := by
    intro tc tq htq hb
    have hcore : 0 ≤ sideNum side mid (tc / tq) := by
      cases side with
      | buy =>
        simp only [sideBound] at hb
        have h2 : mid ≤ tc / tq := (le_div_iff₀ htq).mpr hb
        simp only [sideNum]
        linarith
      | sell =>
        simp only [sideBound] at hb
        have h2 : tc / tq ≤ mid := (div_le_iff₀ htq).mpr hb
        simp only [sideNum]
        linarith
    have h1 : 0 ≤ sideNum side mid (tc / tq) / mid :=
      div_nonneg hcore (le_of_lt hmid)
    linarith
  unfold fillFromWalk at hok
  cases hespr : pyDiv (o.worst - bp) bp with
  | exn e =>
    rw [hespr] at hok
    simp at hok
  | ok espr =>
    rw [hespr] at hok
    dsimp only at hok
    by_cases hrem : 0 < o.remaining
    · rw [if_pos hrem] at hok
      cases hfpq : pyDiv (size - o.remaining) size with
      | exn e =>
        rw [hfpq] at hok
        simp at hok
      | ok fpq =>
        rw [hfpq] at hok
        dsimp only at hok
        by_cases hq0 : o.totalQty = 0
        · rw [if_pos hq0] at hok
          simp only [PyResult.ok.injEq] at hok
          rw [← hok] at hv
          simp [noLiquidityZeroQty] at hv
        · have htq : 0 < o.totalQty := lt_of_le_of_ne hq (Ne.symm hq0)
          rw [if_neg hq0, pyDiv_ok _ _ hq0] at hok
          dsimp only at hok
          rw [pyDiv_ok _ _ (ne_of_gt hmid)] at hok
          dsimp only at hok
          simp only [PyResult.ok.injEq] at hok
          rw [← hok] at hv
          simp only [Option.some.injEq] at hv
          rw [← hv]
          exact pyRound_nonneg 6 _ (hslq _ _ htq hbound)
    · rw [if_neg hrem] at hok
      by_cases hq0 : o.totalQty = 0
      · rw [hq0] at hok
        rw [show pyDiv o.totalCost 0 = .exn ("ZeroDivisionError: float division by zero") from rfl] at hok
        simp at hok
      · have htq : 0 < o.totalQty := lt_of_le_of_ne hq (Ne.symm hq0)
        rw [pyDiv_ok _ _ hq0] at hok
        dsimp only at hok
        rw [pyDiv_ok _ _ (ne_of_gt hmid)] at hok
        dsimp only at hok
        simp only [PyResult.ok.injEq] at hok
        rw [← hok] at hv
        simp only [Option.some.injEq] at hv
        rw [← hv]
        exact pyRound_nonneg 6 _ (hslq _ _ htq hbound)

/-- C3: for a book with non-empty bids and asks, best bid strictly below
best ask, non-negative data-model prices and quantities, and a positive
notional, every slippage value actually returned by `calculate_slippage`
(some quantity was taken, otherwise `slippage` is `None`) is non-negative:
the buy-side average fill price is at or above mid and the sell-side
average at or below mid. -/
theorem buy_sell_slippage_nonneg (ob : Orderbook) (size : ℚ) (side : Side)
    (bb ba : ℚ) (fr : FillResult) (v : ℚ)
    (hbb : maxPrice ob.bids = .ok bb) (hba : minPrice ob.asks = .ok ba)
    (hlt : bb < ba)
    (hnn : ∀ L ∈ ob.bids ++ ob.asks, 0 ≤ L.price ∧ 0 ≤ L.qty)
    (hs : 0 < size)
    (hok : calculate_slippage ob size side = .ok fr)
    (hv : fr.slippage = some v) : 0 ≤ v := by
  obtain ⟨hbbmem, hbbub⟩ := (listMax_ok_iff _ _).mp hbb
  obtain ⟨hbamem, hbalb⟩ := (listMin_ok_iff _ _).mp hba
  have hbb0 : 0 ≤ bb := by
    rcases List.mem_map.mp hbbmem with ⟨L, hL, rfl⟩
    exact (hnn L (List.mem_append_left _ hL)).1
  have hmid : 0 < (bb + ba) / 2 := by linarith
  by_cases hlen : (sortLevels side ob).length = 0
  · simp only [calculate_slippage, if_pos hlen, PyResult.ok.injEq] at hok
    rw [← hok] at hv
    simp [noLiquidityResult] at hv
  · cases side with
    | buy =>
      have hnnlev : ∀ L ∈ sortLevels .buy ob, 0 ≤ L.price ∧ 0 ≤ L.qty := by
        intro L hL
        exact hnn L (List.mem_append_right _
          ((sortLevels_perm .buy ob).mem_iff.mp hL))
      have hlb : ∀ L ∈ sortLevels .buy ob, ba ≤ L.price ∧ 0 ≤ L.qty := by
        intro L hL
        have hmem : L ∈ ob.asks := (sortLevels_perm .buy ob).mem_iff.mp hL
        exact ⟨hbalb _ (List.mem_map_of_mem Level.price hmem),
          (hnn L (List.mem_append_right _ hmem)).2⟩
      simp only [calculate_slippage, if_neg hlen, hbb, hba] at hok
      rw [walkLevels_eq_walkPure _ size ba hs hnnlev] at hok
      dsimp only at hok
      obtain ⟨hlow, hqnn⟩ :=
        walkPure_qty_lower (sortLevels .buy ob) size ba ba hs (by linarith) hlb
      apply fillFromWalk_slippage_nonneg size ((bb + ba) / 2) ba .buy _ fr v hok
        hv hmid hqnn
      simp only [sideBound]
      have h2 : (bb + ba) / 2 *
            (walkPure size ba (sortLevels .buy ob)).totalQty ≤
          ba * (walkPure size ba (sortLevels .buy ob)).totalQty :=
        mul_le_mul_of_nonneg_right (by linarith) hqnn
      linarith
    | sell =>
      have hnnlev : ∀ L ∈ sortLevels .sell ob, 0 ≤ L.price ∧ 0 ≤ L.qty := by
        intro L hL
        exact hnn L (List.mem_append_left _
          ((sortLevels_perm .sell ob).mem_iff.mp hL))
      have hub : ∀ L ∈ sortLevels .sell ob,
          0 ≤ L.price ∧ L.price ≤ bb ∧ 0 ≤ L.qty := by
        intro L hL
        have hmem : L ∈ ob.bids := (sortLevels_perm .sell ob).mem_iff.mp hL
        exact ⟨(hnn L (List.mem_append_left _ hmem)).1,
          hbbub _ (List.mem_map_of_mem Level.price hmem),
          (hnn L (List.mem_append_left _ hmem)).2⟩
      simp only [calculate_slippage, if_neg hlen, hbb, hba] at hok
      rw [walkLevels_eq_walkPure _ size bb hs hnnlev] at hok
      dsimp only at hok
      have hhigh :=
        walkPure_qty_upper (sortLevels .sell ob) size bb bb hs hub
      have hqnn : 0 ≤ (walkPure size bb (sortLevels .sell ob)).totalQty :=
        (walkPure_qty_lower (sortLevels .sell ob) size bb 0 hs (le_refl 0)
          (fun L hL => ⟨(hnnlev L hL).1, (hnnlev L hL).2⟩)).2
      apply fillFromWalk_slippage_nonneg size ((bb + ba) / 2) bb .sell _ fr v hok
        hv hmid hqnn
      simp only [sideBound]
      have h2 : bb * (walkPure size bb (sortLevels .sell ob)).totalQty ≤
          (bb + ba) / 2 * (walkPure size bb (sortLevels .sell ob)).totalQty :=
        mul_le_mul_of_nonneg_right (by linarith) hqnn
      linarith

theorem depthUsd_perm {l1 l2 : List Level} (h : l1.Perm l2) :
    depthUsd l1 = depthUsd l2 := by
  unfold depthUsd
  exact (h.map _).sum_eq

/-- C4 (amended): for books with non-empty bids and asks, positive prices,
non-negative quantities and positive opposing-side depth, requesting
exactly the total opposing depth fills completely (`filled=true`,
`filledPercent=100`) and requesting one unit more does not
(`filled=false`). -/
theorem depth_boundary_filled (ob : Orderbook) (side : Side)
    (hb : ob.bids ≠ []) (ha : ob.asks ≠ [])
    (hpos : ∀ L ∈ ob.bids ++ ob.asks, 0 < L.price ∧ 0 ≤ L.qty)
    (hD : 0 < depthUsd (opposing side ob)) :
    (∃ fr : FillResult,
      calculate_slippage ob (depthUsd (opposing side ob)) side = .ok fr ∧
      fr.filled = true ∧ fr.filledPercent = some 100) ∧
    (∃ fr2 : FillResult,
      calculate_slippage ob (depthUsd (opposing side ob) + 1) side = .ok fr2 ∧
      fr2.filled = false) := by
  obtain ⟨bb, hbb⟩ : ∃ bb, maxPrice ob.bids = .ok bb := by
    cases hbids : ob.bids with
    | nil => exact absurd hbids hb
    | cons B bs => exact ⟨_, rfl⟩
  obtain ⟨ba, hba⟩ : ∃ ba, minPrice ob.asks = .ok ba := by
    cases hasks : ob.asks with
    | nil => exact absurd hasks ha
    | cons A as => exact ⟨_, rfl⟩
  have hbb0 : 0 < bb := by
    rcases List.mem_map.mp ((listMax_ok_iff _ _).mp hbb).1 with ⟨L, hL, rfl⟩
    exact (hpos L (List.mem_append_left _ hL)).1
  have hba0 : 0 < ba := by
    rcases List.mem_map.mp ((listMin_ok_iff _ _).mp hba).1 with ⟨L, hL, rfl⟩
    exact (hpos L (List.mem_append_right _ hL)).1
  have hmid : (bb + ba) / 2 ≠ 0 := by positivity
  have hlevperm := sortLevels_perm side ob
  have hlevD : depthUsd (sortLevels side ob) = depthUsd (opposing side ob) :=
    depthUsd_perm hlevperm
  have hlen : ¬ (sortLevels side ob).length = 0 := by
    intro hc
    rw [List.length_eq_zero] at hc
    have hzero : depthUsd (opposing side ob) = 0 := by
      rw [← hlevD, hc]
      simp [depthUsd]
    rw [hzero] at hD
    exact lt_irrefl 0 hD
  have hmemlev : ∀ L ∈ sortLevels side ob, L ∈ ob.bids ++ ob.asks := by
    intro L hL
    have hop : L ∈ opposing side ob := hlevperm.mem_iff.mp hL
    cases side
    · exact List.mem_append_right _ hop
    · exact List.mem_append_left _ hop
  have hnnlev : ∀ L ∈ sortLevels side ob, 0 ≤ L.price ∧ 0 ≤ L.qty := by
    intro L hL
    exact ⟨le_of_lt (hpos L (hmemlev L hL)).1, (hpos L (hmemlev L hL)).2⟩
  have hDpos : 0 < depthUsd (sortLevels side ob) := hlevD ▸ hD
  have hfull : ∀ bp : ℚ, 0 < bp → ∃ fr : FillResult,
      fillFromWalk (depthUsd (opposing side ob)) ((bb + ba) / 2) bp side
        (walkPure (depthUsd (opposing side ob)) bp (sortLevels side ob)) =
        PyResult.ok fr ∧ fr.filled = true ∧ fr.filledPercent = some 100 := by
    intro bp hbp0
    obtain ⟨hcost, hrem⟩ :=
      walkPure_cost_remaining (sortLevels side ob) _ bp hD hnnlev
    rw [hlevD, min_self] at hrem
    have hrem0 : ¬ 0 < (walkPure (depthUsd (opposing side ob)) bp
        (sortLevels side ob)).remaining := by
      rw [hrem]
      simp
    have htq : (walkPure (depthUsd (opposing side ob)) bp
        (sortLevels side ob)).totalQty ≠ 0 :=
      ne_of_gt (walkPure_qty_pos _ _ bp hD hnnlev hDpos)
    exact fillFromWalk_full _ _ bp side _ hrem0 (ne_of_gt hbp0) hmid htq
  have hnot : ∀ bp : ℚ, 0 < bp → ∃ fr2 : FillResult,
      fillFromWalk (depthUsd (opposing side ob) + 1) ((bb + ba) / 2) bp side
        (walkPure (depthUsd (opposing side ob) + 1) bp (sortLevels side ob)) =
        PyResult.ok fr2 ∧ fr2.filled = false := by
    intro bp hbp0
    have hD1 : 0 < depthUsd (opposing side ob) + 1 := by linarith
    obtain ⟨hcost, hrem⟩ :=
      walkPure_cost_remaining (sortLevels side ob) _ bp hD1 hnnlev
    rw [hlevD] at hrem
    have hmin : min (depthUsd (opposing side ob) + 1)
        (depthUsd (opposing side ob)) = depthUsd (opposing side ob) :=
      min_eq_right (by linarith)
    rw [hmin] at hrem
    have hrem1 : 0 < (walkPure (depthUsd (opposing side ob) + 1) bp
        (sortLevels side ob)).remaining := by
      rw [hrem]
      linarith
    exact fillFromWalk_notfull _ _ bp side _ hrem1 (ne_of_gt hbp0) hmid
      (ne_of_gt hD1)
  cases side with
  | buy =>
    constructor
    · obtain ⟨fr, h1, h2, h3⟩ := hfull ba hba0
      refine ⟨fr, ?_, h2, h3⟩
      simp only [calculate_slippage, if_neg hlen, hbb, hba]
      rw [walkLevels_eq_walkPure _ _ ba hD hnnlev]
      exact h1
    · obtain ⟨fr2, h1, h2⟩ := hnot ba hba0
      refine ⟨fr2, ?_, h2⟩
      simp only [calculate_slippage, if_neg hlen, hbb, hba]
      rw [walkLevels_eq_walkPure _ _ ba (by linarith) hnnlev]
      exact h1
  | sell =>
    constructor
    · obtain ⟨fr, h1, h2, h3⟩ := hfull bb hbb0
      refine ⟨fr, ?_, h2, h3⟩
      simp only [calculate_slippage, if_neg hlen, hbb, hba]
      rw [walkLevels_eq_walkPure _ _ bb hD hnnlev]
      exact h1
    · obtain ⟨fr2, h1, h2⟩ := hnot bb hbb0
      refine ⟨fr2, ?_, h2⟩
      simp only [calculate_slippage, if_neg hlen, hbb, hba]
      rw [walkLevels_eq_walkPure _ _ bb (by linarith) hnnlev]
      exact h1

/-- Counterexample for C4 as stated: a book with non-empty bids and asks
whose levels carry zero quantity has total opposing depth 0, and
requesting that exact depth makes `calculate_slippage` raise
`ZeroDivisionError` (in `total_cost / total_qty`) instead of returning
`filled=true, filledPercent=100`. -/
theorem depth_boundary_zero_depth_raises :
    depthUsd (opposing Side.buy ⟨[⟨1,0⟩],[⟨2,0⟩]⟩) = 0 ∧
    calculate_slippage ⟨[⟨1,0⟩],[⟨2,0⟩]⟩ 0 Side.buy =
      .exn ("ZeroDivisionError: float division by zero") := by
  constructor
  · norm_num [depthUsd, opposing]
  · norm_num [calculate_slippage, sortLevels, sortByLe, insertSorted, leAsc,
      maxPrice, minPrice, listMax, listMin, walkLevels, fillFromWalk, pyDiv,
      sideNum]

/-- Witness for (amended) C4 at a one-level book of depth 101. -/
theorem depth_boundary_filled_witness :
    (∃ fr : FillResult,
      calculate_slippage ⟨[⟨99,1⟩],[⟨101,1⟩]⟩ 101 Side.buy = .ok fr ∧
      fr.filled = true ∧ fr.filledPercent = some 100) ∧
    (∃ fr2 : FillResult,
      calculate_slippage ⟨[⟨99,1⟩],[⟨101,1⟩]⟩ (101 + 1) Side.buy = .ok fr2 ∧
      fr2.filled = false) := by
  have h := depth_boundary_filled ⟨[⟨99,1⟩],[⟨101,1⟩]⟩ Side.buy (by simp)
    (by simp) (by decide) (by norm_num [depthUsd, opposing])
  have hd : depthUsd (opposing Side.buy ⟨[⟨99,1⟩],[⟨101,1⟩]⟩) = 101 := by
    norm_num [depthUsd, opposing]
  rw [hd] at h
  exact h

theorem walkLevels_cons (r w : ℚ) (L : Level) (ls : List Level) :
    walkLevels r w (L :: ls) =
      if r ≤ L.price * L.qty then
        (if L.price = 0 then .exn ("ZeroDivisionError: float division by zero")
         else .ok ⟨r / L.price, r, 0, L.price⟩)
      else match walkLevels (r - L.price * L.qty) L.price ls with
        | .exn e => .exn e
        | .ok o => .ok ⟨L.qty + o.totalQty, L.price * L.qty + o.totalCost,
            o.remaining, o.worst⟩ := rfl

/-- Any notional in `(0, price*qty]` of the first sorted opposing level is
filled entirely at the best price, so the returned slippage is exactly the
rounded half-spread over mid, not 0, and the effective spread is 0. -/
theorem calc_small_notional (ob : Orderbook) (side : Side) (L : Level)
    (rest : List Level) (bb ba s : ℚ)
    (hsort : sortLevels side ob = L :: rest)
    (hbb : maxPrice ob.bids = .ok bb) (hba : minPrice ob.asks = .ok ba)
    (hpos : ∀ X ∈ ob.bids ++ ob.asks, 0 < X.price)
    (hs : 0 < s) (hsv : s ≤ L.price * L.qty) :
    calculate_slippage ob s side = .ok
      { slippage := some (pyRound 6 (((ba - bb) / 2) / ((bb + ba) / 2) * 100)),
        slippageBps := some (pyRound 2 (((ba - bb) / 2) / ((bb + ba) / 2) * 100 * 100)),
        effectiveSpreadBps := some (pyRound 2 0),
        filled := true, filledPercent := some 100, error := none } := by
  have hbb0 : 0 < bb := by
    rcases List.mem_map.mp ((listMax_ok_iff _ _).mp hbb).1 with ⟨X, hX, rfl⟩
    exact hpos X (List.mem_append_left _ hX)
  have hba0 : 0 < ba := by
    rcases List.mem_map.mp ((listMin_ok_iff _ _).mp hba).1 with ⟨X, hX, rfl⟩
    exact hpos X (List.mem_append_right _ hX)
  have hmidpos : 0 < (bb + ba) / 2 := by linarith
  have hmidne : (bb + ba) / 2 ≠ 0 := ne_of_gt hmidpos
  have hLlev : L ∈ sortLevels side ob := by
    rw [hsort]
    exact List.mem_cons_self L rest
  have hLop : L ∈ opposing side ob := (sortLevels_perm side ob).mem_iff.mp hLlev
  have hLpos : 0 < L.price := by
    cases side
    · exact hpos L (List.mem_append_right _ hLop)
    · exact hpos L (List.mem_append_left _ hLop)
  have hpne : L.price ≠ 0 := ne_of_gt hLpos
  have hsne : s ≠ 0 := ne_of_gt hs
  have htq : s / L.price ≠ 0 := div_ne_zero hsne hpne
  have hlen : ¬ (sortLevels side ob).length = 0 := by
    rw [hsort]
    simp
  have hwalk : ∀ w : ℚ, walkLevels s w (L :: rest) =
      .ok ⟨s / L.price, s, 0, L.price⟩ := by
    intro w
    rw [walkLevels_cons, if_pos hsv, if_neg hpne]
  have havg : s / (s / L.price) = L.price := by
    field_simp
  cases side with
  | buy =>
    have hhead := sortLevels_buy_head ob L rest hsort
    have hba_eq : ba = L.price := by
      rw [hba] at hhead
      injection hhead
    simp only [calculate_slippage, if_neg hlen, hbb, hba, hsort]
    rw [hwalk ba]
    dsimp only
    unfold fillFromWalk
    rw [pyDiv_ok _ _ (hba_eq ▸ hpne)]
    dsimp only
    rw [if_neg (lt_irrefl (0:ℚ)), pyDiv_ok _ _ htq]
    dsimp only
    rw [pyDiv_ok _ _ hmidne]
    dsimp only
    rw [havg, hba_eq]
    simp only [sideNum]
    have harg1 : (L.price - (bb + L.price) / 2) / ((bb + L.price) / 2) * 100 =
        ((L.price - bb) / 2) / ((bb + L.price) / 2) * 100 := by
      ring
    have harg3 : |(L.price - L.price) / L.price| * 100 * 100 = (0:ℚ) := by
      norm_num
    rw [harg1, harg3]
    simp
  | sell =>
    have hhead := sortLevels_sell_head ob L rest hsort
    have hbb_eq : bb = L.price := by
      rw [hbb] at hhead
      injection hhead
    simp only [calculate_slippage, if_neg hlen, hbb, hba, hsort]
    rw [hwalk bb]
    dsimp only
    unfold fillFromWalk
    rw [pyDiv_ok _ _ (hbb_eq ▸ hpne)]
    dsimp only
    rw [if_neg (lt_irrefl (0:ℚ)), pyDiv_ok _ _ htq]
    dsimp only
    rw [pyDiv_ok _ _ hmidne]
    dsimp only
    rw [havg, hbb_eq]
    simp only [sideNum]
    have harg1 : ((L.price + ba) / 2 - L.price) / ((L.price + ba) / 2) * 100 =
        ((ba - L.price) / 2) / ((L.price + ba) / 2) * 100 := by
      ring
    have harg3 : |(L.price - L.price) / L.price| * 100 * 100 = (0:ℚ) := by
      norm_num
    rw [harg1, harg3]
    simp

/-- C2 (amended): for a book with positive prices, as the notional shrinks
(any `0 < s` at most the first opposing level's notional), `simulateFill`
returns `filled=true` — but the slippage does not tend to 0: it is
constantly the rounded half-spread over mid,
`round(((best_ask - best_bid)/2) / mid * 100, 6)`, which is 0 only for a
zero-spread book. -/
theorem small_notional_slippage_half_spread (ob : Orderbook) (side : Side)
    (L : Level) (rest : List Level) (bb ba s : ℚ)
    (hsort : sortLevels side ob = L :: rest)
    (hbb : maxPrice ob.bids = .ok bb) (hba : minPrice ob.asks = .ok ba)
    (hpos : ∀ X ∈ ob.bids ++ ob.asks, 0 < X.price)
    (hs : 0 < s) (hsv : s ≤ L.price * L.qty) :
    calculate_slippage ob s side = .ok
      { slippage := some (pyRound 6 (((ba - bb) / 2) / ((bb + ba) / 2) * 100)),
        slippageBps := some (pyRound 2 (((ba - bb) / 2) / ((bb + ba) / 2) * 100 * 100)),
        effectiveSpreadBps := some (pyRound 2 0),
        filled := true, filledPercent := some 100, error := none } :=
  calc_small_notional ob side L rest bb ba s hsort hbb hba hpos hs hsv

/-- Witness for (amended) C2 at a concrete book and notional 50. -/
theorem small_notional_slippage_half_spread_witness :
    calculate_slippage ⟨[⟨99,1⟩],[⟨101,1⟩]⟩ 50 Side.buy = .ok
      { slippage := some (pyRound 6 (((101 - 99) / 2) / ((99 + 101) / 2) * 100)),
        slippageBps := some (pyRound 2 (((101 - 99) / 2) / ((99 + 101) / 2) * 100 * 100)),
        effectiveSpreadBps := some (pyRound 2 0),
        filled := true, filledPercent := some 100, error := none } :=
  small_notional_slippage_half_spread ⟨[⟨99,1⟩],[⟨101,1⟩]⟩ Side.buy ⟨101,1⟩ []
    99 101 50 rfl rfl rfl (by decide) (by norm_num) (by norm_num)

/-- Counterexample to C2 as stated: on the book `bids=[(100,1)]`,
`asks=[(102,1)]` there is an `ε` (here 1/2) such that below every positive
threshold some notional still returns slippage at least `ε`: every small
enough buy pays the half-spread 0.990099 percent, which does not tend
to 0. -/
theorem small_notional_slippage_not_zero :
    ∃ ε : ℚ, 0 < ε ∧ ∀ δ : ℚ, 0 < δ → ∃ s : ℚ, 0 < s ∧ s < δ ∧
      ∃ fr : FillResult,
        calculate_slippage ⟨[⟨100,1⟩],[⟨102,1⟩]⟩ s Side.buy = .ok fr ∧
        ∃ v : ℚ, fr.slippage = some v ∧ ε ≤ |v| := by
  refine ⟨1/2, by norm_num, ?_⟩
  intro δ hδ
  have hspos : 0 < min (δ/2) 1 := lt_min (by linarith) one_pos
  refine ⟨min (δ/2) 1, hspos, ?_, ?_⟩
  · have h1 : min (δ/2) 1 ≤ δ/2 := min_le_left _ _
    linarith
  · have hsort : sortLevels Side.buy ⟨[⟨100,1⟩],[⟨102,1⟩]⟩ = [⟨102,1⟩] := rfl
    have hle : min (δ/2) 1 ≤ (102:ℚ) * 1 :=
      le_trans (min_le_right _ _) (by norm_num)
    have h := calc_small_notional ⟨[⟨100,1⟩],[⟨102,1⟩]⟩ Side.buy ⟨102,1⟩ []
      100 102 (min (δ/2) 1) hsort rfl rfl (by decide) hspos hle
    refine ⟨_, h, _, rfl, ?_⟩
    have harg : (((102:ℚ) - 100) / 2) / ((100 + 102) / 2) * 100 = 100/101 := by
      norm_num
    have hfl : ⌊(100/101 : ℚ) * 10^6⌋ = 990099 := by
      norm_num [Int.floor_eq_iff]
    have hv : pyRound 6 ((((102:ℚ) - 100) / 2) / ((100 + 102) / 2) * 100) =
        990099/1000000 := by
      rw [harg]
      simp only [pyRound, roundHalfEven, hfl]
      norm_num
    rw [hv]
    rw [abs_of_nonneg (by norm_num)]
    norm_num

/-- Witness for C3: a one-level buy that fills at 101 against mid 100
yields slippage exactly 1 percent, which is non-negative. -/
theorem buy_sell_slippage_nonneg_witness :
    calculate_slippage ⟨[⟨99,1⟩],[⟨101,1⟩]⟩ 101 Side.buy =
      .ok ⟨some 1, some 100, some 0, true, some 100, none⟩ ∧ (0:ℚ) ≤ 1 := by
  have hok : calculate_slippage ⟨[⟨99,1⟩],[⟨101,1⟩]⟩ 101 Side.buy =
      .ok ⟨some 1, some 100, some 0, true, some 100, none⟩ := by
    norm_num [calculate_slippage, sortLevels, sortByLe, insertSorted, leAsc,
      maxPrice, minPrice, listMax, listMin, walkLevels, fillFromWalk, pyDiv,
      pyRound, roundHalfEven, sideNum]
  exact ⟨hok, buy_sell_slippage_nonneg ⟨[⟨99,1⟩],[⟨101,1⟩]⟩ 101 Side.buy 99 101
    ⟨some 1, some 100, some 0, true, some 100, none⟩ 1 rfl rfl (by norm_num)
    (by decide) (by norm_num) hok rfl⟩

/-- C1 (code bug): on a book whose asks carry zero quantity, the buy fill
returns `slippage=None` while the sell fill returns a number; instead of
using the sell value alone, `analyze_orderbook` reads the never-assigned
local `avg_slippage` and raises `UnboundLocalError`, so no per-size entry
is produced at all. -/
theorem analyze_one_sided_raises :
    analyzeClipSizes ⟨[⟨100,1⟩], [⟨101,0⟩]⟩ 4 =
      .exn ("UnboundLocalError: local variable referenced before assignment") := by
  norm_num [analyzeClipSizes, analyzeClipLoop, analyzeClipStep, CLIP_SIZES,
    calculate_slippage, sortLevels, sortByLe, insertSorted, leAsc, leDesc,
    maxPrice, minPrice, listMax, listMin, walkLevels, fillFromWalk, pyDiv,
    sideNum, noLiquidityZeroQty, truthyOr]

/-- C6 (amended): each per-size table is a permutation of the built rows,
sorted ascending by total cost with `float("inf")` mapped to `1e18` as the
sort key; every not-fully-filled row carries infinity (not the computed
values) for slippage and total cost plus the insufficient-liquidity note;
and when every filled venue costs less than `1e18` bps, unfilled venues
are placed after all filled ones. -/
theorem ranking_sorted_unfilled_inf (l : List RankInput) :
    (reorganize_by_clip_size l).Perm (l.map buildRow) ∧
    (reorganize_by_clip_size l).Pairwise
      (fun r t => sortKey r.totalCostBps ≤ sortKey t.totalCostBps) ∧
    (∀ r ∈ reorganize_by_clip_size l, r.note ≠ "" →
      r.slippageBps = BpsVal.inf ∧ r.totalCostBps = BpsVal.inf ∧
      r.note = "* insufficient liquidity") ∧
    ((∀ a ∈ l, a.filled = true → a.totalCostBps < 10 ^ 18) →
      (reorganize_by_clip_size l).Pairwise
        (fun r t => r.note ≠ "" → t.note ≠ "")) := by
  have hperm : (reorganize_by_clip_size l).Perm (l.map buildRow) :=
    sortByLe_perm _ _
  have htrans : ∀ a b c : Row, rowLe a b = true → rowLe b c = true →
      rowLe a c = true := by
    intro a b c h1 h2
    simp only [rowLe, decide_eq_true_eq] at h1 h2 ⊢
    exact le_trans h1 h2
  have htotal : ∀ a b : Row, rowLe a b = true ∨ rowLe b a = true := by
    intro a b
    simp only [rowLe, decide_eq_true_eq]
    exact le_total _ _
  have hsorted : (reorganize_by_clip_size l).Pairwise
      (fun r t => sortKey r.totalCostBps ≤ sortKey t.totalCostBps) :=
    (sortByLe_pairwise rowLe htrans htotal (l.map buildRow)).imp
      (by intro a b h; simpa [rowLe] using h)
  refine ⟨hperm, hsorted, ?_, ?_⟩
  · intro r hr hnote
    rcases List.mem_map.mp (hperm.mem_iff.mp hr) with ⟨a, ha, rfl⟩
    by_cases hf : a.filled = true
    · exact absurd (by simp [buildRow, hf]) hnote
    · simp [buildRow, hf]
  · intro hb
    apply List.Pairwise.imp_of_mem _ hsorted
    intro r t hrmem htmem hkey hrnote
    rcases List.mem_map.mp (hperm.mem_iff.mp hrmem) with ⟨p, hp, rfl⟩
    rcases List.mem_map.mp (hperm.mem_iff.mp htmem) with ⟨c, hc, rfl⟩
    by_cases hfp : p.filled = true
    · exact absurd (by simp [buildRow, hfp]) hrnote
    · by_cases hfc : c.filled = true
      · exfalso
        have h1 : sortKey (buildRow p).totalCostBps = 10 ^ 18 := by
          simp [buildRow, hfp, sortKey]
        have h2 : sortKey (buildRow c).totalCostBps = c.totalCostBps := by
          simp [buildRow, hfc, sortKey]
        have h3 := hb c hc hfc
        rw [h1, h2] at hkey
        linarith
      · simp [buildRow, hfc]

/-- Counterexample for C6 as stated: an unfilled venue whose computed
total cost was 21/2 bps gets `float("inf")` in its ranking row, so the
actually computed value is not preserved for display. -/
theorem unfilled_row_discards_computed_cost :
    (reorganize_by_clip_size [⟨"A", 5, 2, 21/2, false⟩]).map Row.totalCostBps =
      [BpsVal.inf] ∧ BpsVal.inf ≠ BpsVal.val (21/2) := by
  constructor
  · rfl
  · simp

/-- Witness for (amended) C6 on a two-venue table with one unfilled row. -/
theorem ranking_sorted_unfilled_inf_witness :
    (reorganize_by_clip_size [⟨"B",1,1,2,true⟩, ⟨"A",3,1,4,false⟩]).Perm
      (([⟨"B",1,1,2,true⟩, ⟨"A",3,1,4,false⟩] : List RankInput).map buildRow) ∧
    (reorganize_by_clip_size [⟨"B",1,1,2,true⟩, ⟨"A",3,1,4,false⟩]).Pairwise
      (fun r t => sortKey r.totalCostBps ≤ sortKey t.totalCostBps) ∧
    (∀ r ∈ reorganize_by_clip_size [⟨"B",1,1,2,true⟩, ⟨"A",3,1,4,false⟩],
      r.note ≠ "" → r.slippageBps = BpsVal.inf ∧ r.totalCostBps = BpsVal.inf ∧
      r.note = "* insufficient liquidity") ∧
    (reorganize_by_clip_size [⟨"B",1,1,2,true⟩, ⟨"A",3,1,4,false⟩]).Pairwise
      (fun r t => r.note ≠ "" → t.note ≠ "") := by
  have h := ranking_sorted_unfilled_inf [⟨"B",1,1,2,true⟩, ⟨"A",3,1,4,false⟩]
  refine ⟨h.1, h.2.1, h.2.2.1, h.2.2.2 ?_⟩
  intro a ha hfil
  rcases List.mem_cons.mp ha with rfl | ha2
  · norm_num
  · rcases List.mem_cons.mp ha2 with rfl | h3
    · simp at hfil
    · simp at h3

/-- C8 (amended): the Lighter normalizer sorts bids descending and asks
ascending for every raw payload; the Hyperliquid normalizer returns the
payload levels in their original order, with no sorting. -/
theorem normalizer_sorting_amended :
    (∀ br ar : List LighterRawLevel,
      ((fetch_lighter_normalize br ar).bids.Pairwise
        fun a b => b.price ≤ a.price) ∧
      ((fetch_lighter_normalize br ar).asks.Pairwise
        fun a b => a.price ≤ b.price)) ∧
    (∀ (raw : List (List HLRawLevel)) (book : Orderbook),
      fetch_hyperliquid_normalize raw = .ok book →
      ∃ b a rest, raw = b :: a :: rest ∧
        book.bids = b.map (fun l => ⟨l.px, l.sz⟩) ∧
        book.asks = a.map (fun l => ⟨l.px, l.sz⟩)) := by
  constructor
  · intro br ar
    constructor
    · exact (sortByLe_pairwise leDesc leDesc_trans leDesc_total _).imp
        (by intro a b h; simpa [leDesc] using h)
    · exact (sortByLe_pairwise leAsc leAsc_trans leAsc_total _).imp
        (by intro a b h; simpa [leAsc] using h)
  · intro raw book hok
    cases raw with
    | nil => simp [fetch_hyperliquid_normalize] at hok
    | cons b t =>
      cases t with
      | nil => simp [fetch_hyperliquid_normalize] at hok
      | cons a rest =>
        refine ⟨b, a, rest, rfl, ?_, ?_⟩
        · simp only [fetch_hyperliquid_normalize, PyResult.ok.injEq] at hok
          rw [← hok]
        · simp only [fetch_hyperliquid_normalize, PyResult.ok.injEq] at hok
          rw [← hok]

/-- Counterexample for C8 as stated: the Hyperliquid normalizer hands back
an ascending bids payload still ascending — not sorted descending. -/
theorem hyperliquid_normalizer_no_sort :
    ∃ book : Orderbook,
      fetch_hyperliquid_normalize [[⟨1,1⟩,⟨2,1⟩],[⟨3,1⟩]] = .ok book ∧
      ¬ (book.bids.Pairwise fun a b => b.price ≤ a.price) := by
  refine ⟨⟨[⟨1,1⟩,⟨2,1⟩],[⟨3,1⟩]⟩, rfl, ?_⟩
  intro h
  have h2 := (List.pairwise_cons.mp h).1 ⟨2,1⟩ (List.mem_cons_self _ _)
  norm_num at h2

/-- Witness for (amended) C8 at concrete Lighter and Hyperliquid payloads. -/
theorem normalizer_sorting_amended_witness :
    ((fetch_lighter_normalize [⟨1,1⟩,⟨2,1⟩] [⟨5,1⟩,⟨4,1⟩]).bids.Pairwise
      fun a b => b.price ≤ a.price) ∧
    (∃ b a rest, ([[⟨7,1⟩],[⟨8,1⟩]] : List (List HLRawLevel)) = b :: a :: rest ∧
      (⟨[⟨7,1⟩],[⟨8,1⟩]⟩ : Orderbook).bids = b.map (fun l => ⟨l.px, l.sz⟩) ∧
      (⟨[⟨7,1⟩],[⟨8,1⟩]⟩ : Orderbook).asks = a.map (fun l => ⟨l.px, l.sz⟩)) :=
  ⟨(normalizer_sorting_amended.1 [⟨1,1⟩,⟨2,1⟩] [⟨5,1⟩,⟨4,1⟩]).1,
   normalizer_sorting_amended.2 [[⟨7,1⟩],[⟨8,1⟩]] ⟨[⟨7,1⟩],[⟨8,1⟩]⟩ rfl⟩
